import Mathlib

/-!
# marshaler: bit layout and extraction of the generated `UnmarshalBinary`

A shallow embedding of `generator.go`.

* `Field`, `bitmasks`, `masks` are the declarations of the source.
* `unmarshal` is `Field.unmarshal`: it builds the list `b` of byte sources and
  selects the reassembly by `fieldType`.  The emitted text is represented by
  the syntax trees `ByteSrc` and `Expr`, one constructor per format string.
* `parse` is `Field.parse` on what it reads of an `*ast.Field` (`AstField`),
  with `strings.Trim`, `strings.Split` and `strconv.ParseInt` as
  `trimBackquotes`, `splitColon` and `parseInt32`.
* `process` is `Generator.process` after `parse` has filled the fields: the
  cursor loop (`processStep`, `layout`), the length guard (`ceilDiv8`) and the
  assignments of the emitted routine (`Decoder`); `processStruct` runs `parse`
  first.
* `unmarshalBinary` is the meaning of the emitted Go routine on a buffer
  (`runDecoder` its body); `bitAt` and `bitsValue` read the buffer bit by bit.

Go `int` is taken as 64 bits wide and is modelled by `Int`: declared widths
come from `strconv.ParseInt(_, 10, 32)`, so the cursor of any schema that can
be written down stays far inside the 64-bit range.  `/` and `%` of Go truncate
towards zero and are `Int.tdiv` and `Int.tmod`.  `none` stands for a panic
(`index out of range`, `log.Fatalf`).
-/

namespace Marshaler

/-- The struct `Field` of the source, without the back pointer `g` (only
`g.byteOrder` is read through it; it is passed to `unmarshal` directly). -/
structure Field where
  name : String
  fieldType : String
  offset : Int
  typeLength : Int
  length : Int
  deriving DecidableEq, Repr

/-- The table `bitmasks` of the source. -/
def bitmasks : List Nat := [0x80, 0x40, 0x20, 0x10, 0x08, 0x04, 0x02, 0x01]

/-- The table `masks` of the source. -/
def masks : List Nat := [0xff, 0x7f, 0x3f, 0x1f, 0x0f, 0x07, 0x03, 0x01]

/-- Go indexing `s[i]` of a slice with an `int`; `none` is the panic. -/
def goIndex {α : Type} (s : List α) (i : Int) : Option α :=
  if 0 ≤ i then s[i.toNat]? else none

/-- Go slicing `s[0:n]`; `none` when `n` exceeds the length.  (Go only
panics beyond the capacity; for the fields treated here `unmarshal` never
slices beyond the length.) -/
def goSlice {α : Type} (s : List α) (n : Nat) : Option (List α) :=
  if n ≤ s.length then some (s.take n) else none

/-- One entry of the string slice `b` of `unmarshal`. -/
inductive ByteSrc where
  /-- The text `0x00`. -/
  | zero
  /-- The text `data[%d]`. -/
  | raw (index : Int)
  /-- The text `data[%d] & 0x%02x`. -/
  | masked (index : Int) (mask : Nat)
  deriving DecidableEq, Repr

/-- The configured byte order, `g.byteOrder`; the emitted text
`binary.%s.UintN` names one of the two orders of `encoding/binary`. -/
inductive ByteOrder where
  | BigEndian
  | LittleEndian
  deriving DecidableEq, Repr

/-- The expression returned by `unmarshal`. -/
inductive Expr where
  /-- The text `%s(%s)` of the case `uint8`: a conversion of `b[0]`. -/
  | conv (typ : String) (b0 : ByteSrc)
  /-- The text `binary.%s.Uint<width>([]byte{%s})` over the joined sources. -/
  | binaryUint (width : Nat) (order : ByteOrder) (bytes : List ByteSrc)
  /-- The text `%s & 0x%02x != 0` of the case `bool`. -/
  | bitTest (b0 : ByteSrc) (mask : Nat)
  deriving DecidableEq, Repr

/-- The local `offsetByte := f.offset / 8` of `unmarshal`. -/
def offsetByte (f : Field) : Int := f.offset.tdiv 8

/-- The local `offsetBit := f.offset % 8` of `unmarshal`. -/
def offsetBit (f : Field) : Int := f.offset.tmod 8

/-- The first loop of `unmarshal`, `for i := 0; i < f.length; i += 8`, from
the loop variable `i` with `b` built so far; `fuel` bounds the iterations. -/
def dataLoop (offsetByte offsetBit length : Int) :
    Nat → Int → List ByteSrc → Option (List ByteSrc)
  | 0, _, b => some b
  | fuel + 1, i, b =>
    if i < length then
      if i = 0 ∧ length > 1 ∧ offsetBit > 0 then
        (goIndex masks offsetBit).bind fun m =>
          dataLoop offsetByte offsetBit length fuel (i + 8)
            (b ++ [ByteSrc.masked (offsetByte + i) m])
      else
        dataLoop offsetByte offsetBit length fuel (i + 8)
          (b ++ [ByteSrc.raw (offsetByte + i.tdiv 8)])
    else some b

/-- The second loop of `unmarshal`, `for i := 0; i < n; i += 8` with
`n = f.typeLength - f.length`, which puts `0x00` in front of `b`. -/
def padLoop (n : Int) : Nat → Int → List ByteSrc → List ByteSrc
  | 0, _, b => b
  | fuel + 1, i, b =>
    if i < n then padLoop n fuel (i + 8) (ByteSrc.zero :: b) else b

/-- The slice `b` of `unmarshal` when the `switch` is reached.  Each loop
gets as much fuel as its bound, which is more than it can use since `i` grows
by 8 (`dataLoop_fuel_irrelevant`, `padLoop_fuel_irrelevant`). -/
def sources (f : Field) : Option (List ByteSrc) :=
  (dataLoop (offsetByte f) (offsetBit f) f.length f.length.toNat 0 []).map fun b =>
    if f.length < f.typeLength then
      padLoop (f.typeLength - f.length) (f.typeLength - f.length).toNat 0 b
    else b

/-- The method `Field.unmarshal`. -/
def unmarshal (byteOrder : ByteOrder) (f : Field) : Option Expr :=
  (sources f).bind fun b =>
    if f.fieldType = "uint8" then
      (goIndex b 0).map (Expr.conv f.fieldType)
    else if f.fieldType = "uint16" then
      (goSlice b 2).map (Expr.binaryUint 16 byteOrder)
    else if f.fieldType = "uint32" then
      (goSlice b 4).map (Expr.binaryUint 32 byteOrder)
    else if f.fieldType = "uint64" then
      (goSlice b 8).map (Expr.binaryUint 64 byteOrder)
    else if f.fieldType = "bool" then
      (goIndex b 0).bind fun b0 =>
        (goIndex bitmasks (offsetBit f)).map (Expr.bitTest b0)
    else none

/-- One iteration of the field loop of `process`, on the pair of `fields`
and `length`; `f` is the field as `parse` left it. -/
def processStep (st : List Field × Int) (f : Field) : List Field × Int :=
  (st.1 ++ [{ f with offset := st.2 }],
    if st.2.tmod 8 > 0 ∧ f.length > 1 then st.2 + (f.length - st.2.tmod 8)
    else st.2 + f.length)

/-- The field loop of `process` started in the state `st`. -/
def layoutFrom (st : List Field × Int) (parsed : List Field) : List Field × Int :=
  parsed.foldl processStep st

/-- The field loop of `process`: `fields` and the final `length`. -/
def layout (parsed : List Field) : List Field × Int :=
  layoutFrom ([], 0) parsed

/-- The value of `int(math.Ceil(float64(length) / 8))`: the integer ceiling
of `length / 8` (the conversion and the division by 8 are exact in `float64`
for every cursor below `2 ^ 53` in absolute value). -/
def ceilDiv8 (length : Int) : Int := -((-length) / 8)

/-- The routine emitted by `process`: the bound of the length guard and the
assignments `t.<name> = <expr>` in order. -/
structure Decoder where
  minLength : Int
  assigns : List (String × Expr)
  deriving DecidableEq, Repr

/-- The second loop of `process`: one assignment `t.<name> = <expr>` per
field, in order; a panic of `unmarshal` ends the generation. -/
def emitAssigns (byteOrder : ByteOrder) : List Field → Option (List (String × Expr))
  | [] => some []
  | f :: rest =>
    (unmarshal byteOrder f).bind fun e =>
      (emitAssigns byteOrder rest).map fun assigns => (f.name, e) :: assigns

/-- The method `Generator.process` on the fields delivered by `parse`. -/
def process (byteOrder : ByteOrder) (parsed : List Field) : Option Decoder :=
  (emitAssigns byteOrder (layout parsed).1).map fun assigns =>
    { minLength := ceilDiv8 (layout parsed).2, assigns := assigns }

/-- A decoded value: an unsigned integer or a boolean. -/
inductive Value where
  | uint (n : Nat)
  | bool (b : Bool)
  deriving DecidableEq, Repr

/-- The value of a byte source of the emitted text on the buffer `data`;
`none` is the panic of an index out of range. -/
def evalSrc (data : List (Fin 256)) : ByteSrc → Option Nat
  | ByteSrc.zero => some 0
  | ByteSrc.raw k => (goIndex data k).map fun x => x.val
  | ByteSrc.masked k m => (goIndex data k).map fun x => x.val &&& m

/-- The values of the byte sources of a composite literal `[]byte{...}`. -/
def evalSrcs (data : List (Fin 256)) : List ByteSrc → Option (List Nat)
  | [] => some []
  | s :: rest => (evalSrc data s).bind fun x => (evalSrcs data rest).map fun xs => x :: xs

/-- The unsigned integer `binary.BigEndian.UintN` reads from its bytes. -/
def bigEndian (bs : List Nat) : Nat := bs.foldl (fun acc x => acc * 256 + x) 0

/-- The unsigned integer `binary.LittleEndian.UintN` reads from its bytes. -/
def littleEndian (bs : List Nat) : Nat := bs.foldr (fun x acc => x + 256 * acc) 0

/-- The value of an emitted expression on the buffer `data`. -/
def evalExpr (data : List (Fin 256)) : Expr → Option Value
  | Expr.conv _ b0 => (evalSrc data b0).map Value.uint
  | Expr.binaryUint _ order bytes =>
    (evalSrcs data bytes).map fun xs =>
      match order with
      | ByteOrder.BigEndian => Value.uint (bigEndian xs)
      | ByteOrder.LittleEndian => Value.uint (littleEndian xs)
  | Expr.bitTest b0 mask => (evalSrc data b0).map fun x => Value.bool (x &&& mask != 0)

/-- The result of the emitted routine: `nil` or `io.EOF`. -/
inductive GoError where
  | nil
  | EOF
  deriving DecidableEq, Repr

/-- The record the routine writes to: the fields assigned so far, by name. -/
abbrev Record := List (String × Value)

/-- The assignment `t.<name> = v`. -/
def assign (t : Record) (name : String) (v : Value) : Record :=
  t.filter (fun p => p.1 != name) ++ [(name, v)]

/-- The assignments of the emitted routine, in order, on the record `t`. -/
def runAssigns (data : List (Fin 256)) : List (String × Expr) → Record → Option Record
  | [], t => some t
  | a :: rest, t => (evalExpr data a.2).bind fun v => runAssigns data rest (assign t a.1 v)

/-- The field names with which Go accepts the struct type together with
the emitted routine: the names are distinct, none is the blank identifier
`_` (the routine cannot refer to a blank field in `t._ = ...`), and none is
`UnmarshalBinary` (a field and a method of one type cannot have the same
name). -/
def assignable (names : List String) : Prop :=
  names.Nodup ∧ "_" ∉ names ∧ "UnmarshalBinary" ∉ names

instance : DecidablePred assignable := fun names => by
  unfold assignable
  exact inferInstance

/-- The body of the emitted routine `UnmarshalBinary(data)` on the record
`t`, for a receiver name that Go accepts: the record afterwards and the error
returned.  `none` is a panic, or a routine that does not compile because of
its field names (`assignable`). -/
def runDecoder (d : Decoder) (t : Record) (data : List (Fin 256)) :
    Option (Record × GoError) :=
  if assignable (d.assigns.map Prod.fst) then
    if (data.length : Int) < d.minLength then some (t, GoError.EOF)
    else (runAssigns data d.assigns t).map fun t1 => (t1, GoError.nil)
  else none

/-- The `typeLength` that `parse` gives to a type name; `none` is its
`log.Fatalf` on an unknown type. -/
def naturalWidth (fieldType : String) : Option Int :=
  if fieldType = "uint8" then some 8
  else if fieldType = "uint16" then some 16
  else if fieldType = "uint32" then some 32
  else if fieldType = "uint64" then some 64
  else if fieldType = "bool" then some 1
  else none

/-- A valid schema field: a supported kind with its natural width, and a
declared width from 1 to the natural width (so a `bool` has width 1). -/
def validField (f : Field) : Prop :=
  naturalWidth f.fieldType = some f.typeLength ∧ 1 ≤ f.length ∧ f.length ≤ f.typeLength

instance : DecidablePred validField := fun f => by
  unfold validField
  exact inferInstance

/-- The buffer index a byte source reads, if it reads one. -/
def ByteSrc.reads : ByteSrc → List Int
  | ByteSrc.zero => []
  | ByteSrc.raw k => [k]
  | ByteSrc.masked k _ => [k]

/-- The buffer indices read by a list of byte sources. -/
def readsOf : List ByteSrc → List Int
  | [] => []
  | s :: rest => s.reads ++ readsOf rest

/-- The buffer indices read by an emitted expression. -/
def Expr.reads : Expr → List Int
  | Expr.conv _ b0 => b0.reads
  | Expr.binaryUint _ _ bytes => readsOf bytes
  | Expr.bitTest b0 _ => b0.reads

/-- The byte sources an emitted expression is made of, in order. -/
def Expr.sources : Expr → List ByteSrc
  | Expr.conv _ b0 => [b0]
  | Expr.binaryUint _ _ bytes => bytes
  | Expr.bitTest b0 _ => [b0]

/-- The amounts the field loop of `process` adds to `length`, one per
field, when it starts at the cursor `L`. -/
def advances (L : Int) : List Field → List Int
  | [] => []
  | f :: rest =>
    if L.tmod 8 > 0 ∧ f.length > 1 then
      (f.length - L.tmod 8) :: advances (L + (f.length - L.tmod 8)) rest
    else f.length :: advances (L + f.length) rest

/-- The text of `fmt.Sprintf("%02x", n)`. -/
def hex02 (n : Nat) : String :=
  if n < 16 then "0" ++ String.mk (Nat.toDigits 16 n) else String.mk (Nat.toDigits 16 n)

/-- The text of an entry of the slice `b`, by the format strings of
`unmarshal`. -/
def ByteSrc.render : ByteSrc → String
  | ByteSrc.zero => "0x00"
  | ByteSrc.raw k => "data[" ++ toString k ++ "]"
  | ByteSrc.masked k m => "data[" ++ toString k ++ "] & 0x" ++ hex02 m

/-- The name of a byte order as it stands in `g.byteOrder`. -/
def ByteOrder.render : ByteOrder → String
  | ByteOrder.BigEndian => "BigEndian"
  | ByteOrder.LittleEndian => "LittleEndian"

/-- The text returned by `unmarshal`, by the format strings of its `switch`. -/
def Expr.render : Expr → String
  | Expr.conv typ b0 => typ ++ "(" ++ b0.render ++ ")"
  | Expr.binaryUint width order bytes =>
    "binary." ++ order.render ++ ".Uint" ++ toString width ++ "([]byte\x7b" ++
      ",".intercalate (bytes.map ByteSrc.render) ++ "\x7d)"
  | Expr.bitTest b0 mask => b0.render ++ " & 0x" ++ hex02 mask ++ " != 0"

/-- The struct `T1` of the tests, as `parse` delivers its fields. -/
def t1_in : List Field :=
  [⟨"length", "uint8", 0, 8, 8⟩]

/-- The struct `T2` of the tests, as `parse` delivers its fields. -/
def t2_in : List Field :=
  [⟨"b1", "uint8", 0, 8, 8⟩, ⟨"b2", "uint8", 0, 8, 8⟩]

/-- The two `bool` fields `b3`, `b4` of the structs `T4` to `T7` of the tests. -/
def t4_bools : List Field :=
  [⟨"b3", "bool", 0, 1, 1⟩, ⟨"b4", "bool", 0, 1, 1⟩]

/-- The struct `T5` of the tests, as `parse` delivers its fields. -/
def t5_in : List Field :=
  t2_in ++ t4_bools ++ [⟨"b5", "uint8", 0, 8, 8⟩]

/-- The struct `T6` of the tests, as `parse` delivers its fields. -/
def t6_in : List Field :=
  t2_in ++ t4_bools ++ [⟨"b5", "uint16", 0, 16, 16⟩]

/-- The struct `T7` of the tests, as `parse` delivers its fields. -/
def t7_in : List Field :=
  t2_in ++ t4_bools ++ [⟨"b5", "uint64", 0, 64, 48⟩]

/-- The first data byte source that `unmarshal` emits for a field wider than
one bit at byte `k`, bit `o` (with `0 ≤ o ≤ 7`): masked with `masks[o]`,
which is `2 ^ (8 - o) - 1`, when `o > 0`. -/
def firstSrc (k o : Int) : ByteSrc :=
  if 0 < o then ByteSrc.masked k (2 ^ (8 - o.toNat) - 1) else ByteSrc.raw k


/-- What `parse` reads of an `*ast.Field`: the names, the name of the type
when the type is an identifier, and the text `Tag.Value` when there is a
tag (a raw string literal keeps its back quotes in that text). -/
structure AstField where
  names : List String
  typeIdent : Option String
  tag : Option String
  deriving DecidableEq, Repr

/-- The back quote, the cut set of `strings.Trim` in `parse`. -/
def backquote : Char := Char.ofNat 96

/-- The call `strings.Trim(s, backquote)`: leading and trailing back quotes
are removed. -/
def trimBackquotes (s : List Char) : List Char :=
  ((s.dropWhile fun c => c = backquote).reverse.dropWhile fun c => c = backquote).reverse

/-- The call `strings.Split(s, ":")`. -/
def splitColon : List Char → List (List Char)
  | [] => [[]]
  | c :: cs =>
    if c = ':' then [] :: splitColon cs
    else
      match splitColon cs with
      | [] => [[c]]
      | tok :: toks => (c :: tok) :: toks

/-- The decimal digits of `strconv.ParseUint(s, 10, _)` read into `acc`;
`none` is the syntax error on another character. -/
def parseDigits : List Char → Nat → Option Nat
  | [], acc => some acc
  | c :: cs, acc =>
    if '0' ≤ c ∧ c ≤ '9' then parseDigits cs (acc * 10 + (c.toNat - 48)) else none

/-- The call `strconv.ParseInt(s, 10, 32)`; `none` is `err != nil`: no
digit, another character than a digit after the optional sign, or a value
outside the 32-bit range. -/
def parseInt32 (s : List Char) : Option Int :=
  match s with
  | [] => none
  | c :: cs =>
    if c = '-' then
      if cs = [] then none
      else (parseDigits cs 0).bind fun un =>
        if un > 2 ^ 31 then none else some (-(un : Int))
    else
      if (if c = '+' then cs else c :: cs) = [] then none
      else (parseDigits (if c = '+' then cs else c :: cs) 0).bind fun un =>
        if un ≥ 2 ^ 31 then none else some (un : Int)

/-- The method `Field.parse` on a fresh `Field` (offset 0); `none` is a
panic or `log.Fatalf`. -/
def parse (field : AstField) : Option Field :=
  (goIndex field.names 0).bind fun name =>
  field.typeIdent.bind fun fieldType =>
  (naturalWidth fieldType).bind fun typeLength =>
    match field.tag with
    | none => some ⟨name, fieldType, 0, typeLength, typeLength⟩
    | some value =>
      if "binary:".toList.isPrefixOf (trimBackquotes value.toList) then
        (goIndex (splitColon (trimBackquotes value.toList)) 1).bind fun tok1 =>
          if tok1 = "length".toList then
            (goIndex (splitColon (trimBackquotes value.toList)) 2).bind fun tok2 =>
              (parseInt32 tok2).map fun l => ⟨name, fieldType, 0, typeLength, l⟩
          else none
      else some ⟨name, fieldType, 0, typeLength, typeLength⟩

/-- The calls of `parse` in the field loop of `process`, in order; one
failure ends the generation. -/
def parseAll : List AstField → Option (List Field)
  | [] => some []
  | a :: rest => (parse a).bind fun f => (parseAll rest).map fun fs => f :: fs

/-- The method `Generator.process` on the fields of the struct type: `parse`
on every field, then the layout and the emitted routine. -/
def processStruct (byteOrder : ByteOrder) (fields : List AstField) : Option Decoder :=
  (parseAll fields).bind (process byteOrder)

theorem layoutFrom_nil (st : List Field × Int) : layoutFrom st [] = st := rfl

theorem layoutFrom_cons (st : List Field × Int) (f : Field) (fs : List Field) :
    layoutFrom st (f :: fs) = layoutFrom (processStep st f) fs := rfl

theorem layoutFrom_append (st : List Field × Int) (fs gs : List Field) :
    layoutFrom st (fs ++ gs) = layoutFrom (layoutFrom st fs) gs := by
  simp [layoutFrom, List.foldl_append]

/-- The cursor does not depend on the fields collected so far, and the loop
only appends to them. -/
theorem layoutFrom_acc (fs : List Field) :
    ∀ (acc : List Field) (L : Int),
      (layoutFrom (acc, L) fs).1 = acc ++ (layoutFrom ([], L) fs).1 ∧
      (layoutFrom (acc, L) fs).2 = (layoutFrom ([], L) fs).2 := by
  induction fs with
  | nil => intro acc L; simp [layoutFrom_nil]
  | cons f fs ih =>
    intro acc L
    simp only [layoutFrom_cons, processStep]
    have h1 := ih (acc ++ [{ f with offset := L }])
      (if L.tmod 8 > 0 ∧ f.length > 1 then L + (f.length - L.tmod 8) else L + f.length)
    have h2 := ih ([] ++ [{ f with offset := L }])
      (if L.tmod 8 > 0 ∧ f.length > 1 then L + (f.length - L.tmod 8) else L + f.length)
    rw [h1.1, h1.2, h2.1, h2.2]
    simp

theorem layoutFrom_length (fs : List Field) :
    ∀ (st : List Field × Int), (layoutFrom st fs).1.length = st.1.length + fs.length := by
  induction fs with
  | nil => intro st; simp [layoutFrom_nil]
  | cons f fs ih =>
    intro st
    rw [layoutFrom_cons, ih]
    simp [processStep]
    omega

theorem layout_length (fs : List Field) : (layout fs).1.length = fs.length := by
  simp [layout, layoutFrom_length]

theorem layout_snoc (pre : List Field) (f : Field) :
    layout (pre ++ [f]) = processStep (layout pre) f := by
  simp [layout, layoutFrom_append, layoutFrom_cons, layoutFrom_nil]

/-- The fields and the cursor of a schema `pre ++ f :: post`. -/
theorem layout_split (pre post : List Field) (f : Field) :
    (layout (pre ++ f :: post)).1 =
      (layout pre).1 ++ { f with offset := (layout pre).2 } ::
        (layoutFrom ([], (layout (pre ++ [f])).2) post).1 ∧
    (layout (pre ++ f :: post)).2 = (layoutFrom ([], (layout (pre ++ [f])).2) post).2 := by
  have e1 : layout (pre ++ [f]) = processStep (layout pre) f := by
    simp [layout, layoutFrom_append, layoutFrom_cons, layoutFrom_nil]
  have e2 : layout (pre ++ f :: post) = layoutFrom (processStep (layout pre) f) post := by
    simp [layout, layoutFrom_append, layoutFrom_cons]
  have h := layoutFrom_acc post (processStep (layout pre) f).1 (processStep (layout pre) f).2
  rw [e2, e1]
  constructor
  · rw [h.1]; simp [processStep]
  · rw [h.2]

/-- C1, amended: the layout rule of `process`.  For every field list
`pre ++ f :: post` the field `f` is recorded at the cursor `L` reached after
`pre` (0 for the first field), its position in `unmarshal` is byte `L / 8`,
bit `L % 8` (Go division), and the cursor after `f` is `L + (w - L % 8)`
when `L % 8 > 0` and `w > 1`, and `L + w` otherwise, `w` being the declared
width.  For a cursor `L ≥ 0` the test `L % 8 > 0` is the test `L mod 8 ≠ 0`
of the claim. -/
theorem layout_rule (pre post : List Field) (f : Field) :
    (layout ([] : List Field)).2 = 0 ∧
    (layout (pre ++ f :: post)).1[pre.length]? = some { f with offset := (layout pre).2 } ∧
    offsetByte { f with offset := (layout pre).2 } = (layout pre).2.tdiv 8 ∧
    offsetBit { f with offset := (layout pre).2 } = (layout pre).2.tmod 8 ∧
    (layout (pre ++ [f])).2 =
      (if (layout pre).2.tmod 8 > 0 ∧ f.length > 1
        then (layout pre).2 + (f.length - (layout pre).2.tmod 8)
        else (layout pre).2 + f.length) ∧
    (0 ≤ (layout pre).2 →
      (layout (pre ++ [f])).2 =
        (if (layout pre).2 % 8 ≠ 0 ∧ f.length > 1
          then (layout pre).2 + (f.length - (layout pre).2 % 8)
          else (layout pre).2 + f.length)) := by
  have e1 : layout (pre ++ [f]) = processStep (layout pre) f := by
    simp [layout, layoutFrom_append, layoutFrom_cons, layoutFrom_nil]
  refine ⟨rfl, ?_, rfl, rfl, ?_, ?_⟩
  · rw [(layout_split pre post f).1]
    rw [List.getElem?_append_right (by simp [layout_length])]
    simp [layout_length]
  · rw [e1]; rfl
  · intro h0
    rw [e1]
    simp only [processStep]
    rw [Int.tmod_eq_emod h0 (by decide)]
    have : (layout pre).2 % 8 > 0 ↔ (layout pre).2 % 8 ≠ 0 := by omega
    simp only [this]

/-! ## The loops of `unmarshal` -/

theorem goIndex_masks (o : Int) (h0 : 0 < o) (h8 : o < 8) :
    goIndex masks o = some (2 ^ (8 - o.toNat) - 1) := by
  interval_cases o <;> rfl

theorem goIndex_bitmasks (o : Int) (h0 : 0 ≤ o) (h8 : o < 8) :
    goIndex bitmasks o = some (2 ^ (7 - o.toNat)) := by
  interval_cases o <;> rfl

/-- More fuel than the loop needs does not change what it builds. -/
theorem dataLoop_fuel_irrelevant (ob obit len : Int) :
    ∀ (fuel1 fuel2 : Nat) (i : Int) (b : List ByteSrc),
      len ≤ i + 8 * fuel1 → len ≤ i + 8 * fuel2 →
      dataLoop ob obit len fuel1 i b = dataLoop ob obit len fuel2 i b := by
  intro fuel1
  induction fuel1 with
  | zero =>
    intro fuel2 i b h1 _
    cases fuel2 with
    | zero => rfl
    | succ n =>
      have : ¬ i < len := by omega
      simp [dataLoop, this]
  | succ m ih =>
    intro fuel2 i b h1 h2
    cases fuel2 with
    | zero =>
      have : ¬ i < len := by omega
      simp [dataLoop, this]
    | succ n =>
      simp only [dataLoop]
      by_cases hlt : i < len
      · have e1 := ih n (i + 8) (b ++ [ByteSrc.raw (ob + i.tdiv 8)]) (by omega) (by omega)
        have e2 : ∀ m', dataLoop ob obit len m (i + 8) (b ++ [ByteSrc.masked (ob + i) m']) =
            dataLoop ob obit len n (i + 8) (b ++ [ByteSrc.masked (ob + i) m']) :=
          fun m' => ih n (i + 8) _ (by omega) (by omega)
        simp only [hlt, if_true, e1, e2]
      · simp [hlt]

theorem padLoop_fuel_irrelevant (n : Int) :
    ∀ (fuel1 fuel2 : Nat) (i : Int) (b : List ByteSrc),
      n ≤ i + 8 * fuel1 → n ≤ i + 8 * fuel2 →
      padLoop n fuel1 i b = padLoop n fuel2 i b := by
  intro fuel1
  induction fuel1 with
  | zero =>
    intro fuel2 i b h1 _
    cases fuel2 with
    | zero => rfl
    | succ k =>
      have : ¬ i < n := by omega
      simp [padLoop, this]
  | succ m ih =>
    intro fuel2 i b h1 h2
    cases fuel2 with
    | zero =>
      have : ¬ i < n := by omega
      simp [padLoop, this]
    | succ k =>
      simp only [padLoop]
      by_cases hlt : i < n
      · simp only [hlt, if_true]
        exact ih k (i + 8) _ (by omega) (by omega)
      · simp [hlt]

/-- What the first loop appends: one source per started octet of `len`, each
reading a byte from `ob` on within the `len` bits. -/
theorem dataLoop_spec (ob obit len : Int) (hbit : obit < 8) :
    ∀ (fuel : Nat) (i : Int) (b : List ByteSrc), 0 ≤ i → 8 ∣ i → len ≤ i + 8 * fuel →
      ∃ b', dataLoop ob obit len fuel i b = some (b ++ b') ∧
        len ≤ i + 8 * b'.length ∧
        (∀ s ∈ b', ∃ k, (s = ByteSrc.raw k ∨ ∃ m, s = ByteSrc.masked k m) ∧
          ob ≤ k ∧ 8 * (k - ob) < len) := by
  intro fuel
  induction fuel with
  | zero =>
    intro i b _ _ hf
    exact ⟨[], by simp [dataLoop], by simpa using hf, by simp⟩
  | succ n ih =>
    intro i b hi hd hf
    by_cases hlt : i < len
    · have hdiv : 8 * i.tdiv 8 = i := by
        rw [Int.tdiv_eq_ediv hi (by decide)]; omega
      by_cases hc : i = 0 ∧ len > 1 ∧ obit > 0
      · obtain ⟨b', hb', hl, hr⟩ := ih (i + 8) (b ++ [ByteSrc.masked (ob + i) (2 ^ (8 - obit.toNat) - 1)])
          (by omega) (by omega) (by omega)
        refine ⟨ByteSrc.masked (ob + i) (2 ^ (8 - obit.toNat) - 1) :: b', ?_, ?_, ?_⟩
        · simp only [dataLoop, if_pos hlt, if_pos hc, goIndex_masks obit hc.2.2 hbit,
            Option.some_bind]
          rw [hb']; simp
        · simp only [List.length_cons]; push_cast; omega
        · intro s hs
          rcases List.mem_cons.1 hs with h | h
          · exact ⟨ob + i, Or.inr ⟨_, h⟩, by omega, by omega⟩
          · exact hr s h
      · obtain ⟨b', hb', hl, hr⟩ := ih (i + 8) (b ++ [ByteSrc.raw (ob + i.tdiv 8)])
          (by omega) (by omega) (by omega)
        refine ⟨ByteSrc.raw (ob + i.tdiv 8) :: b', ?_, ?_, ?_⟩
        · simp only [dataLoop, if_pos hlt, if_neg hc]
          rw [hb']; simp
        · simp only [List.length_cons]; push_cast; omega
        · intro s hs
          rcases List.mem_cons.1 hs with h | h
          · exact ⟨ob + i.tdiv 8, Or.inl h, by omega, by omega⟩
          · exact hr s h
    · exact ⟨[], by simp [dataLoop, hlt], by simp; omega, by simp⟩

/-- What the second loop puts in front: zeros, one per started octet of `n`. -/
theorem padLoop_spec (n : Int) :
    ∀ (fuel : Nat) (i : Int) (b : List ByteSrc), n ≤ i + 8 * fuel →
      ∃ z, padLoop n fuel i b = List.replicate z ByteSrc.zero ++ b ∧ n ≤ i + 8 * z := by
  intro fuel
  induction fuel with
  | zero =>
    intro i b hf
    exact ⟨0, by simp [padLoop], by simpa using hf⟩
  | succ m ih =>
    intro i b hf
    by_cases hlt : i < n
    · obtain ⟨z, hz, hl⟩ := ih (i + 8) (ByteSrc.zero :: b) (by omega)
      refine ⟨z + 1, ?_, by push_cast; omega⟩
      simp only [padLoop, hlt, if_true, hz]
      rw [List.replicate_succ']
      simp
    · exact ⟨0, by simp [padLoop, hlt], by simp; omega⟩

theorem mem_readsOf (k : Int) (b : List ByteSrc) :
    k ∈ readsOf b ↔ ∃ s ∈ b, k ∈ s.reads := by
  induction b with
  | nil => simp [readsOf]
  | cons s rest ih => simp [readsOf, ih]

theorem offsetBit_lt (f : Field) : offsetBit f < 8 :=
  Int.tmod_lt_of_pos _ (by decide)

theorem offsetBit_nonneg (f : Field) (h : 0 ≤ f.offset) : 0 ≤ offsetBit f :=
  Int.tmod_nonneg _ h

/-- The slice `b` at the `switch`: it is built without a panic, has at least
as many entries as the natural width has octets, and reads only bytes from
`offsetByte` on that lie within `length` bits. -/
theorem sources_spec (f : Field) :
    ∃ b, sources f = some b ∧ f.typeLength ≤ 8 * b.length ∧ f.length ≤ 8 * b.length ∧
      ∀ k ∈ readsOf b, offsetByte f ≤ k ∧ 8 * (k - offsetByte f) < f.length := by
  obtain ⟨b', hb', hl, hr⟩ := dataLoop_spec (offsetByte f) (offsetBit f) f.length
    (offsetBit_lt f) f.length.toNat 0 [] (le_refl _) (dvd_zero _) (by omega)
  have hreads : ∀ k ∈ readsOf b', offsetByte f ≤ k ∧ 8 * (k - offsetByte f) < f.length := by
    intro k hk
    obtain ⟨s, hs, hks⟩ := (mem_readsOf k b').1 hk
    obtain ⟨k', hk', h1, h2⟩ := hr s hs
    rcases hk' with rfl | ⟨m, rfl⟩ <;> simp [ByteSrc.reads] at hks <;> subst hks <;> exact ⟨h1, h2⟩
  by_cases hlt : f.length < f.typeLength
  · obtain ⟨z, hz, hzl⟩ := padLoop_spec (f.typeLength - f.length)
      (f.typeLength - f.length).toNat 0 b' (by omega)
    refine ⟨List.replicate z ByteSrc.zero ++ b', ?_, ?_, ?_, ?_⟩
    · simp [sources, hb', hlt, hz]
    · simp only [List.length_append, List.length_replicate]; push_cast; omega
    · simp only [List.length_append, List.length_replicate]; push_cast; omega
    · intro k hk
      obtain ⟨s, hs, hks⟩ := (mem_readsOf k _).1 hk
      rcases List.mem_append.1 hs with h | h
      · rw [List.eq_of_mem_replicate h] at hks
        simp [ByteSrc.reads] at hks
      · exact hreads k ((mem_readsOf k b').2 ⟨s, h, hks⟩)
  · refine ⟨b', ?_, by omega, by omega, hreads⟩
    simp [sources, hb', hlt]

theorem goIndex_zero_mem {α : Type} (b : List α) (x : α) (h : goIndex b 0 = some x) : x ∈ b := by
  cases b with
  | nil => simp [goIndex] at h
  | cons y ys =>
    simp [goIndex] at h
    simp [h]

theorem goIndex_zero_some {α : Type} (b : List α) (h : 1 ≤ b.length) :
    ∃ x, goIndex b 0 = some x := by
  cases b with
  | nil => simp at h
  | cons y ys => exact ⟨y, by simp [goIndex]⟩

/-- The text emitted for a field of a supported kind placed at a
non-negative offset: `unmarshal` returns it, and it reads only bytes from
`offsetByte` on that lie within the `length` bits of the field. -/
theorem unmarshal_spec (byteOrder : ByteOrder) (f : Field) (h0 : 0 ≤ f.offset)
    (hk : naturalWidth f.fieldType = some f.typeLength) :
    ∃ e, unmarshal byteOrder f = some e ∧
      ∀ k ∈ e.reads, offsetByte f ≤ k ∧ 8 * (k - offsetByte f) < f.length := by
  obtain ⟨b, hb, hT, _, hr⟩ := sources_spec f
  have hsub : ∀ (n : Nat) (k : Int), k ∈ readsOf (b.take n) → k ∈ readsOf b := by
    intro n k hk'
    obtain ⟨s, hs, hks⟩ := (mem_readsOf k _).1 hk'
    exact (mem_readsOf k b).2 ⟨s, List.mem_of_mem_take hs, hks⟩
  have hfirst : ∀ b0, goIndex b 0 = some b0 → ∀ k ∈ b0.reads, k ∈ readsOf b := by
    intro b0 hb0 k hk'
    exact (mem_readsOf k b).2 ⟨b0, goIndex_zero_mem b b0 hb0, hk'⟩
  unfold naturalWidth at hk
  by_cases h8 : f.fieldType = "uint8"
  · simp only [h8, if_true, Option.some.injEq] at hk
    obtain ⟨b0, hb0⟩ := goIndex_zero_some b (by omega)
    refine ⟨Expr.conv f.fieldType b0, by simp [unmarshal, hb, h8, hb0], ?_⟩
    intro k hk'
    exact hr k (hfirst b0 hb0 k hk')
  by_cases h16 : f.fieldType = "uint16"
  · simp only [h16, if_true, Option.some.injEq] at hk
    simp only [String.reduceEq, if_false, Option.some.injEq] at hk
    refine ⟨Expr.binaryUint 16 byteOrder (b.take 2), ?_, fun k hk' => hr k (hsub 2 k hk')⟩
    have : 2 ≤ b.length := by omega
    simp [unmarshal, hb, h16, goSlice, this]
  by_cases h32 : f.fieldType = "uint32"
  · simp only [h32, if_true, Option.some.injEq] at hk
    simp only [String.reduceEq, if_false, Option.some.injEq] at hk
    refine ⟨Expr.binaryUint 32 byteOrder (b.take 4), ?_, fun k hk' => hr k (hsub 4 k hk')⟩
    have : 4 ≤ b.length := by omega
    simp [unmarshal, hb, h32, goSlice, this]
  by_cases h64 : f.fieldType = "uint64"
  · simp only [h64, if_true, Option.some.injEq] at hk
    simp only [String.reduceEq, if_false, Option.some.injEq] at hk
    refine ⟨Expr.binaryUint 64 byteOrder (b.take 8), ?_, fun k hk' => hr k (hsub 8 k hk')⟩
    have : 8 ≤ b.length := by omega
    simp [unmarshal, hb, h64, goSlice, this]
  by_cases hb1 : f.fieldType = "bool"
  · simp only [hb1, if_true, Option.some.injEq] at hk
    simp only [String.reduceEq, if_false, Option.some.injEq] at hk
    obtain ⟨b0, hb0⟩ := goIndex_zero_some b (by omega)
    refine ⟨Expr.bitTest b0 (2 ^ (7 - (offsetBit f).toNat)), ?_, ?_⟩
    · simp [unmarshal, hb, hb1, hb0, goIndex_bitmasks _ (offsetBit_nonneg f h0) (offsetBit_lt f)]
    · intro k hk'
      exact hr k (hfirst b0 hb0 k hk')
  · simp [h8, h16, h32, h64, hb1] at hk

/-! ## The cursor on schemas of non-negative widths -/

theorem ceilDiv8_spec (L : Int) : L ≤ 8 * ceilDiv8 L ∧ 8 * ceilDiv8 L < L + 8 := by
  unfold ceilDiv8; omega

theorem ceilDiv8_mono {a b : Int} (h : a ≤ b) : ceilDiv8 a ≤ ceilDiv8 b := by
  unfold ceilDiv8; omega

/-- One step of the cursor on a non-negative width from a non-negative
cursor: the cursor stays non-negative, the guard does not shrink, and the
octets of the field lie below the new guard. -/
theorem step_inv (L w : Int) (h0 : 0 ≤ L) (hw : 0 ≤ w) :
    w ≤ (if L.tmod 8 > 0 ∧ w > 1 then L + (w - L.tmod 8) else L + w) ∧
    ceilDiv8 L ≤ ceilDiv8 (if L.tmod 8 > 0 ∧ w > 1 then L + (w - L.tmod 8) else L + w) ∧
    8 * L.tdiv 8 + w ≤ (if L.tmod 8 > 0 ∧ w > 1 then L + (w - L.tmod 8) else L + w) := by
  rw [Int.tmod_eq_emod h0 (by decide), Int.tdiv_eq_ediv h0 (by decide)]
  unfold ceilDiv8
  split <;> omega

/-- The loop of `process` from a non-negative cursor over non-negative
widths. -/
theorem layoutFrom_inv (fs : List Field) :
    ∀ (L0 : Int), 0 ≤ L0 → (∀ f ∈ fs, 0 ≤ f.length) →
      0 ≤ (layoutFrom ([], L0) fs).2 ∧
      (fs ≠ [] → (∀ f ∈ fs, 1 ≤ f.length) → 1 ≤ (layoutFrom ([], L0) fs).2) ∧
      ceilDiv8 L0 ≤ ceilDiv8 (layoutFrom ([], L0) fs).2 ∧
      ∀ g ∈ (layoutFrom ([], L0) fs).1,
        (∃ f ∈ fs, g = { f with offset := g.offset }) ∧ 0 ≤ g.offset ∧
        8 * offsetByte g + g.length ≤ 8 * ceilDiv8 (layoutFrom ([], L0) fs).2 := by
  induction fs with
  | nil => intro L0 h0 _; simp [layoutFrom_nil, h0]
  | cons f fs ih =>
    intro L0 h0 hw
    have hw0 := hw f (List.mem_cons_self _ _)
    have hstep := step_inv L0 f.length h0 hw0
    have hacc := layoutFrom_acc fs [{ f with offset := L0 }]
      (if L0.tmod 8 > 0 ∧ f.length > 1 then L0 + (f.length - L0.tmod 8) else L0 + f.length)
    have hih := ih (if L0.tmod 8 > 0 ∧ f.length > 1 then L0 + (f.length - L0.tmod 8)
      else L0 + f.length) (by omega) (fun g hg => hw g (List.mem_cons_of_mem _ hg))
    have e : layoutFrom ([], L0) (f :: fs) = layoutFrom ([{ f with offset := L0 }],
        (if L0.tmod 8 > 0 ∧ f.length > 1 then L0 + (f.length - L0.tmod 8) else L0 + f.length)) fs := by
      rw [layoutFrom_cons]; simp [processStep]
    rw [e, hacc.1, hacc.2]
    obtain ⟨i1, i2, i3, i4⟩ := hih
    refine ⟨i1, ?_, le_trans hstep.2.1 i3, ?_⟩
    · intro _ hpos
      by_cases hfs : fs = []
      · subst hfs
        have := hpos f (List.mem_cons_self _ _)
        simp only [layoutFrom_nil]
        omega
      · exact i2 hfs (fun g hg => hpos g (List.mem_cons_of_mem _ hg))
    · intro g hg
      rcases List.mem_append.1 hg with h | h
      · have hg' : g = { f with offset := L0 } := by simpa using h
        subst hg'
        refine ⟨⟨f, List.mem_cons_self _ _, rfl⟩, h0, ?_⟩
        have := (ceilDiv8_spec (layoutFrom ([], if L0.tmod 8 > 0 ∧ f.length > 1 then
          L0 + (f.length - L0.tmod 8) else L0 + f.length) fs).2).1
        have h3 := (ceilDiv8_spec (if L0.tmod 8 > 0 ∧ f.length > 1 then
          L0 + (f.length - L0.tmod 8) else L0 + f.length)).1
        have h4 := hstep.2.2
        simp only [offsetByte]
        omega
      · obtain ⟨⟨f', hf', hgf⟩, j2, j3⟩ := i4 g h
        exact ⟨⟨f', List.mem_cons_of_mem _ hf', hgf⟩, j2, j3⟩

theorem emitAssigns_spec (byteOrder : ByteOrder) (P : Field → Expr → Prop) (fs : List Field)
    (h : ∀ f ∈ fs, ∃ e, unmarshal byteOrder f = some e ∧ P f e) :
    ∃ assigns, emitAssigns byteOrder fs = some assigns ∧
      assigns.map Prod.fst = fs.map Field.name ∧
      ∀ a ∈ assigns, ∃ f ∈ fs, unmarshal byteOrder f = some a.2 ∧ P f a.2 := by
  induction fs with
  | nil => exact ⟨[], rfl, rfl, by simp⟩
  | cons f fs ih =>
    obtain ⟨e, he, hP⟩ := h f (List.mem_cons_self _ _)
    obtain ⟨as, has, hn, hall⟩ := ih (fun f' hf' => h f' (List.mem_cons_of_mem _ hf'))
    refine ⟨(f.name, e) :: as, by simp [emitAssigns, he, has], by simp [hn], ?_⟩
    intro a ha
    rcases List.mem_cons.1 ha with h1 | h1
    · subst h1; exact ⟨f, List.mem_cons_self _ _, he, hP⟩
    · obtain ⟨f', hf', h2⟩ := hall a h1
      exact ⟨f', List.mem_cons_of_mem _ hf', h2⟩

theorem layoutFrom_names (fs : List Field) :
    ∀ (L : Int), (layoutFrom ([], L) fs).1.map Field.name = fs.map Field.name := by
  induction fs with
  | nil => intro L; simp [layoutFrom_nil]
  | cons f fs ih =>
    intro L
    rw [layoutFrom_cons, (layoutFrom_acc fs _ _).1]
    simp [processStep, ih]

/-- The generation on fields as `parse` delivers them, with non-negative
widths: `process` returns a routine, its assignments are those of the fields
in order, and every buffer index they read lies below the length guard. -/
theorem process_spec (byteOrder : ByteOrder) (parsed : List Field)
    (hv : ∀ f ∈ parsed, naturalWidth f.fieldType = some f.typeLength ∧ 0 ≤ f.length) :
    ∃ d, process byteOrder parsed = some d ∧
      d.minLength = ceilDiv8 (layout parsed).2 ∧
      emitAssigns byteOrder (layout parsed).1 = some d.assigns ∧
      d.assigns.map Prod.fst = parsed.map Field.name ∧
      ∀ a ∈ d.assigns, ∀ k ∈ a.2.reads, 0 ≤ k ∧ k ≤ d.minLength - 1 := by
  obtain ⟨_, _, _, hinv⟩ := layoutFrom_inv parsed 0 (le_refl _) (fun f hf => (hv f hf).2)
  have hall : ∀ g ∈ (layout parsed).1, ∃ e, unmarshal byteOrder g = some e ∧
      (fun (_ : Field) (e : Expr) => ∀ k ∈ e.reads, 0 ≤ k ∧
        k ≤ ceilDiv8 (layout parsed).2 - 1) g e := by
    intro g hg
    obtain ⟨⟨f, hf, hgf⟩, hg0, hext⟩ := hinv g hg
    have hkind : naturalWidth g.fieldType = some g.typeLength := by
      rw [hgf]; exact (hv f hf).1
    obtain ⟨e, he, hr⟩ := unmarshal_spec byteOrder g hg0 hkind
    refine ⟨e, he, ?_⟩
    intro k hk
    obtain ⟨h1, h2⟩ := hr k hk
    have hob : 0 ≤ offsetByte g := Int.tdiv_nonneg hg0 (by decide)
    have hext' : 8 * offsetByte g + g.length ≤ 8 * ceilDiv8 (layout parsed).2 := hext
    constructor <;> omega
  obtain ⟨as, has, hn, hP⟩ := emitAssigns_spec byteOrder _ _ hall
  refine ⟨{ minLength := ceilDiv8 (layout parsed).2, assigns := as }, ?_, rfl, has, ?_, ?_⟩
  · simp [process, has]
  · rw [hn]; exact layoutFrom_names parsed 0
  · intro a ha
    obtain ⟨g, _, _, h⟩ := hP a ha
    exact h

theorem validField_parsed (f : Field) (h : validField f) :
    naturalWidth f.fieldType = some f.typeLength ∧ 0 ≤ f.length :=
  ⟨h.1, le_trans (by decide) h.2.1⟩

/-- C2: for a schema of valid fields `process` returns a routine, and every
buffer index read by the expression of any field lies between 0 and
`minLength - 1`, the bound of the length guard of that routine. -/
theorem reads_within_guard (byteOrder : ByteOrder) (parsed : List Field)
    (hv : ∀ f ∈ parsed, validField f) :
    ∃ d, process byteOrder parsed = some d ∧
      ∀ a ∈ d.assigns, ∀ k ∈ a.2.reads, 0 ≤ k ∧ k ≤ d.minLength - 1 := by
  obtain ⟨d, hd, _, _, _, hr⟩ :=
    process_spec byteOrder parsed (fun f hf => validField_parsed f (hv f hf))
  exact ⟨d, hd, hr⟩

theorem layoutFrom_advances (fs : List Field) :
    ∀ (L : Int), (layoutFrom ([], L) fs).2 = L + (advances L fs).sum := by
  induction fs with
  | nil => intro L; simp [layoutFrom_nil, advances]
  | cons f fs ih =>
    intro L
    rw [layoutFrom_cons, (layoutFrom_acc fs _ _).2]
    simp only [processStep, advances]
    split
    · rw [ih]; simp only [List.sum_cons]; omega
    · rw [ih]; simp only [List.sum_cons]; omega

/-- C3, on the failing input: a valid `uint8` field of declared width 4 at
offset 0.  The slice `b` is `0x00, data[0]`, one entry more than the natural
width has octets, and the emitted expression is `uint8(0x00)`: the data byte
`data[0]` is dropped.  Likewise a `uint16` of width 12 reassembles from
`0x00, data[0]` and drops `data[1]`. -/
theorem narrow_uint8_emits_zero :
    validField ⟨"v", "uint8", 0, 8, 4⟩ ∧
    sources ⟨"v", "uint8", 0, 8, 4⟩ = some [ByteSrc.zero, ByteSrc.raw 0] ∧
    unmarshal ByteOrder.BigEndian ⟨"v", "uint8", 0, 8, 4⟩ =
      some (Expr.conv "uint8" ByteSrc.zero) ∧
    sources ⟨"w", "uint16", 0, 16, 12⟩ =
      some [ByteSrc.zero, ByteSrc.raw 0, ByteSrc.raw 1] ∧
    unmarshal ByteOrder.BigEndian ⟨"w", "uint16", 0, 16, 12⟩ =
      some (Expr.binaryUint 16 ByteOrder.BigEndian [ByteSrc.zero, ByteSrc.raw 0]) := by
  decide

/-- C4: the bound of the length guard emitted by `process` is the ceiling of
`finalCursor / 8`, where `finalCursor`, the final `length`, is the sum of the
advancements of the fields; and for a schema of valid fields `process`
returns a routine whose bound is at least 1 when the schema is not empty. -/
theorem guard_is_ceiling (byteOrder : ByteOrder) (parsed : List Field) :
    (∀ d, process byteOrder parsed = some d →
      d.minLength = ceilDiv8 (advances 0 parsed).sum) ∧
    (layout parsed).2 = (advances 0 parsed).sum ∧
    (advances 0 parsed).sum ≤ 8 * ceilDiv8 (advances 0 parsed).sum ∧
    8 * ceilDiv8 (advances 0 parsed).sum < (advances 0 parsed).sum + 8 ∧
    ((∀ f ∈ parsed, validField f) →
      ∃ d, process byteOrder parsed = some d ∧ (parsed ≠ [] → 1 ≤ d.minLength)) := by
  have hsum : (layout parsed).2 = (advances 0 parsed).sum := by
    simp [layout, layoutFrom_advances]
  refine ⟨?_, hsum, (ceilDiv8_spec _).1, (ceilDiv8_spec _).2, ?_⟩
  · intro d hd
    simp only [process, Option.map_eq_some'] at hd
    obtain ⟨as, _, rfl⟩ := hd
    simp [hsum]
  · intro hv
    obtain ⟨d, hd, hmin, _⟩ :=
      process_spec byteOrder parsed (fun f hf => validField_parsed f (hv f hf))
    refine ⟨d, hd, fun hne => ?_⟩
    have h1 : 1 ≤ (layout parsed).2 := (layoutFrom_inv parsed 0 (le_refl _)
      (fun f hf => le_trans (by decide) (hv f hf).2.1)).2.1 hne (fun f hf => (hv f hf).2.1)
    have h2 := (ceilDiv8_spec (layout parsed).2).1
    rw [hmin]
    omega

/-- C5, on the failing input: the valid schema of three `bool` fields, a
`uint8` of declared width 2 and one more `bool`.  The `uint8` is placed at
bit 3 and advances the cursor by `2 - 3 = -1`, so the last `bool` is placed
at bit 2, where the third `bool` already is, and tests the same bit
`data[0] & 0x20`. -/
theorem cursor_steps_back_at_narrow_field :
    (∀ f ∈ [(⟨"a", "bool", 0, 1, 1⟩ : Field), ⟨"b", "bool", 0, 1, 1⟩, ⟨"c", "bool", 0, 1, 1⟩,
      ⟨"d", "uint8", 0, 8, 2⟩, ⟨"e", "bool", 0, 1, 1⟩], validField f) ∧
    advances 0 [⟨"a", "bool", 0, 1, 1⟩, ⟨"b", "bool", 0, 1, 1⟩, ⟨"c", "bool", 0, 1, 1⟩,
      ⟨"d", "uint8", 0, 8, 2⟩, ⟨"e", "bool", 0, 1, 1⟩] = [1, 1, 1, -1, 1] ∧
    (layout [⟨"a", "bool", 0, 1, 1⟩, ⟨"b", "bool", 0, 1, 1⟩, ⟨"c", "bool", 0, 1, 1⟩,
      ⟨"d", "uint8", 0, 8, 2⟩, ⟨"e", "bool", 0, 1, 1⟩]).1.map Field.offset = [0, 1, 2, 3, 2] ∧
    (process ByteOrder.BigEndian [⟨"a", "bool", 0, 1, 1⟩, ⟨"b", "bool", 0, 1, 1⟩,
      ⟨"c", "bool", 0, 1, 1⟩, ⟨"d", "uint8", 0, 8, 2⟩, ⟨"e", "bool", 0, 1, 1⟩]).map
        (fun d => d.assigns.map Prod.snd) =
      some [Expr.bitTest (ByteSrc.raw 0) 0x80, Expr.bitTest (ByteSrc.raw 0) 0x40,
        Expr.bitTest (ByteSrc.raw 0) 0x20, Expr.conv "uint8" ByteSrc.zero,
        Expr.bitTest (ByteSrc.raw 0) 0x20] := by
  decide

/-- C6, on the failing input: the struct `T7` of the tests (a `uint64` with
a 48-bit override at byte 2, bit 2) generated for `LittleEndian`.  The two
`0x00` bytes are put in front of the data bytes as for `BigEndian`, so they
are the low-order bytes of the little-endian integer: on the buffer
`0,0,0,0,0,0,0,1` the field decodes to `2 ^ 56`, which is not below
`2 ^ 48`. -/
theorem littleEndian_override_not_narrowed :
    process ByteOrder.LittleEndian [⟨"b1", "uint8", 0, 8, 8⟩, ⟨"b2", "uint8", 0, 8, 8⟩,
      ⟨"b3", "bool", 0, 1, 1⟩, ⟨"b4", "bool", 0, 1, 1⟩, ⟨"b5", "uint64", 0, 64, 48⟩] =
      some ⟨8, [("b1", Expr.conv "uint8" (ByteSrc.raw 0)), ("b2", Expr.conv "uint8" (ByteSrc.raw 1)),
        ("b3", Expr.bitTest (ByteSrc.raw 2) 0x80), ("b4", Expr.bitTest (ByteSrc.raw 2) 0x40),
        ("b5", Expr.binaryUint 64 ByteOrder.LittleEndian [ByteSrc.zero, ByteSrc.zero,
          ByteSrc.masked 2 0x3f, ByteSrc.raw 3, ByteSrc.raw 4, ByteSrc.raw 5, ByteSrc.raw 6,
          ByteSrc.raw 7])]⟩ ∧
    evalExpr [0, 0, 0, 0, 0, 0, 0, 1] (Expr.binaryUint 64 ByteOrder.LittleEndian [ByteSrc.zero,
      ByteSrc.zero, ByteSrc.masked 2 0x3f, ByteSrc.raw 3, ByteSrc.raw 4, ByteSrc.raw 5,
      ByteSrc.raw 6, ByteSrc.raw 7]) = some (Value.uint (2 ^ 56)) ∧
    ¬ ((2 : Nat) ^ 56 < 2 ^ 48) := by
  decide

theorem offset_split (k o : Int) (hk : 0 ≤ k) (ho0 : 0 ≤ o) (ho7 : o ≤ 7) :
    (8 * k + o).tdiv 8 = k ∧ (8 * k + o).tmod 8 = o := by
  rw [Int.tdiv_eq_ediv (by omega) (by decide), Int.tmod_eq_emod (by omega) (by decide)]
  omega

theorem tdiv_octets :
    Int.tdiv 0 8 = 0 ∧ Int.tdiv 8 8 = 1 ∧ Int.tdiv 16 8 = 2 ∧ Int.tdiv 24 8 = 3 ∧
    Int.tdiv 32 8 = 4 ∧ Int.tdiv 40 8 = 5 ∧ Int.tdiv 48 8 = 6 ∧ Int.tdiv 56 8 = 7 := by
  decide

theorem sources_octets (name fieldType : String) (N w k o : Int)
    (hN : N = 8 ∨ N = 16 ∨ N = 32 ∨ N = 64)
    (hw0 : 0 < w) (hw8 : 8 ∣ w) (hwN : w ≤ N) (hk : 0 ≤ k) (ho0 : 0 ≤ o) (ho7 : o ≤ 7) :
    sources ⟨name, fieldType, 8 * k + o, N, w⟩ =
      some (List.replicate ((N - w) / 8).toNat ByteSrc.zero ++
        firstSrc k o :: (List.range ((w / 8).toNat - 1)).map fun (j : Nat) => ByteSrc.raw (k + 1 + (j : Int))) := by
  obtain ⟨c, rfl⟩ := hw8
  have hs := offset_split k o hk ho0 ho7
  have hm : 0 < o → goIndex masks o = some (2 ^ (8 - o.toNat) - 1) :=
    fun h => goIndex_masks o h (by omega)
  rcases hN with rfl | rfl | rfl | rfl
  all_goals
    have hc1 : 1 ≤ c := by omega
    have hc2 : c ≤ 8 := by omega
    interval_cases c <;> first | omega | skip
  all_goals
    obtain ⟨t0, t1, t2, t3, t4, t5, t6, t7⟩ := tdiv_octets
    by_cases hpos : 0 < o
    · simp [sources, offsetByte, offsetBit, hs, dataLoop, padLoop, hm hpos, hpos, firstSrc,
        List.range_succ, List.replicate, t0, t1, t2, t3, t4, t5, t6, t7, add_assoc]
    · simp [sources, offsetByte, offsetBit, hs, dataLoop, padLoop, hpos, firstSrc,
        List.range_succ, List.replicate, t0, t1, t2, t3, t4, t5, t6, t7, add_assoc]

/-- C7: for an integer field of natural width `N` whose declared width `w`
is a positive multiple of 8 with `w ≤ N`, placed at byte `k`, bit `o` with
`0 ≤ o ≤ 7`, `unmarshal` emits exactly `N / 8` byte sources: `(N - w) / 8`
times `0x00`, then `data[k]`, masked with `masks[o]` exactly when `o > 0`,
then the unmasked `data[k + 1]`, ..., `data[k + w / 8 - 1]`. -/
theorem octet_field_sources (byteOrder : ByteOrder) (name fieldType : String) (N w k o : Int)
    (hkind : naturalWidth fieldType = some N) (hint : fieldType ≠ "bool")
    (hw0 : 0 < w) (hw8 : 8 ∣ w) (hwN : w ≤ N) (hk : 0 ≤ k) (ho0 : 0 ≤ o) (ho7 : o ≤ 7) :
    ∃ e first, unmarshal byteOrder ⟨name, fieldType, 8 * k + o, N, w⟩ = some e ∧
      (o = 0 → first = ByteSrc.raw k) ∧
      (0 < o → ∃ m, goIndex masks o = some m ∧ first = ByteSrc.masked k m) ∧
      e.sources = List.replicate ((N - w) / 8).toNat ByteSrc.zero ++
        first :: (List.range ((w / 8).toNat - 1)).map (fun (j : Nat) => ByteSrc.raw (k + 1 + (j : Int))) ∧
      e.sources.length = (N / 8).toNat ∧
      (fieldType = "uint8" → e = Expr.conv fieldType first) ∧
      (fieldType ≠ "uint8" → e = Expr.binaryUint N.toNat byteOrder e.sources) := by
  have hsrc : ∀ N', N' = 8 ∨ N' = 16 ∨ N' = 32 ∨ N' = 64 → w ≤ N' →
      sources ⟨name, fieldType, 8 * k + o, N', w⟩ =
      some (List.replicate ((N' - w) / 8).toNat ByteSrc.zero ++
        firstSrc k o :: (List.range ((w / 8).toNat - 1)).map fun (j : Nat) => ByteSrc.raw (k + 1 + (j : Int))) :=
    fun N' hN' hw' => sources_octets name fieldType N' w k o hN' hw0 hw8 hw' hk ho0 ho7
  have hfirst0 : o = 0 → firstSrc k o = ByteSrc.raw k := by
    intro h; simp [firstSrc, h]
  have hfirst1 : 0 < o → ∃ m, goIndex masks o = some m ∧ firstSrc k o = ByteSrc.masked k m := by
    intro h
    exact ⟨_, goIndex_masks o h (by omega), by simp [firstSrc, h]⟩
  obtain ⟨c, rfl⟩ := hw8
  unfold naturalWidth at hkind
  by_cases h8 : fieldType = "uint8"
  · simp only [h8, if_true, Option.some.injEq] at hkind
    subst hkind
    have hc : c = 1 := by omega
    subst hc
    refine ⟨Expr.conv fieldType (firstSrc k o), firstSrc k o, ?_, hfirst0, hfirst1, ?_, ?_,
      fun _ => rfl, fun h => absurd h8 h⟩
    · rw [unmarshal, hsrc 8 (Or.inl rfl) (by decide)]
      simp [h8, goIndex]
    · simp [Expr.sources]
    · simp [Expr.sources]
  by_cases h16 : fieldType = "uint16"
  · simp only [h16, if_true, Option.some.injEq] at hkind
    simp only [String.reduceEq, if_false, Option.some.injEq] at hkind
    subst hkind
    have hc1 : 1 ≤ c := by omega
    have hc2 : c ≤ 2 := by omega
    refine ⟨Expr.binaryUint 16 byteOrder (List.replicate ((16 - 8 * c) / 8).toNat ByteSrc.zero ++
        firstSrc k o :: (List.range ((8 * c / 8).toNat - 1)).map fun (j : Nat) => ByteSrc.raw (k + 1 + (j : Int))),
      firstSrc k o, ?_, hfirst0, hfirst1, rfl, ?_, fun h => absurd h h8, fun _ => rfl⟩
    · rw [unmarshal, hsrc 16 (Or.inr (Or.inl rfl)) hwN]
      interval_cases c <;> simp [h16, goSlice]
    · interval_cases c <;> simp [Expr.sources]
  by_cases h32 : fieldType = "uint32"
  · simp only [h32, if_true, Option.some.injEq] at hkind
    simp only [String.reduceEq, if_false, Option.some.injEq] at hkind
    subst hkind
    have hc1 : 1 ≤ c := by omega
    have hc2 : c ≤ 4 := by omega
    refine ⟨Expr.binaryUint 32 byteOrder (List.replicate ((32 - 8 * c) / 8).toNat ByteSrc.zero ++
        firstSrc k o :: (List.range ((8 * c / 8).toNat - 1)).map fun (j : Nat) => ByteSrc.raw (k + 1 + (j : Int))),
      firstSrc k o, ?_, hfirst0, hfirst1, rfl, ?_, fun h => absurd h h8, fun _ => rfl⟩
    · rw [unmarshal, hsrc 32 (Or.inr (Or.inr (Or.inl rfl))) hwN]
      interval_cases c <;> simp [h32, goSlice]
    · interval_cases c <;> simp [Expr.sources]
  by_cases h64 : fieldType = "uint64"
  · simp only [h64, if_true, Option.some.injEq] at hkind
    simp only [String.reduceEq, if_false, Option.some.injEq] at hkind
    subst hkind
    have hc1 : 1 ≤ c := by omega
    have hc2 : c ≤ 8 := by omega
    refine ⟨Expr.binaryUint 64 byteOrder (List.replicate ((64 - 8 * c) / 8).toNat ByteSrc.zero ++
        firstSrc k o :: (List.range ((8 * c / 8).toNat - 1)).map fun (j : Nat) => ByteSrc.raw (k + 1 + (j : Int))),
      firstSrc k o, ?_, hfirst0, hfirst1, rfl, ?_, fun h => absurd h h8, fun _ => rfl⟩
    · rw [unmarshal, hsrc 64 (Or.inr (Or.inr (Or.inr rfl))) hwN]
      interval_cases c <;> simp [h64, goSlice]
    · interval_cases c <;> simp [Expr.sources]
  · simp [h8, h16, h32, h64, hint] at hkind


/-! ## Runs of single-bit fields -/

theorem layout_append (pre rest : List Field) :
    (layout (pre ++ rest)).1 = (layout pre).1 ++ (layoutFrom ([], (layout pre).2) rest).1 ∧
    (layout (pre ++ rest)).2 = (layoutFrom ([], (layout pre).2) rest).2 := by
  have e : layout (pre ++ rest) = layoutFrom (layout pre) rest := by
    simp [layout, layoutFrom_append]
  have h := layoutFrom_acc rest (layout pre).1 (layout pre).2
  rw [e]
  exact h

/-- Fields of width 1 are placed on consecutive bits. -/
theorem layoutFrom_bits (fs : List Field) (h1 : ∀ f ∈ fs, f.length = 1) :
    ∀ (L : Int), (layoutFrom ([], L) fs).2 = L + fs.length ∧
      ∀ (i : Nat) (hi : i < fs.length),
        (layoutFrom ([], L) fs).1[i]? = some { fs[i] with offset := L + i } := by
  induction fs with
  | nil => intro L; simp [layoutFrom_nil]
  | cons f fs ih =>
    intro L
    have hf : f.length = 1 := h1 f (List.mem_cons_self _ _)
    obtain ⟨ih1, ih2⟩ := ih (fun g hg => h1 g (List.mem_cons_of_mem _ hg)) (L + 1)
    have e : layoutFrom ([], L) (f :: fs) = layoutFrom ([{ f with offset := L }], L + 1) fs := by
      rw [layoutFrom_cons]; simp [processStep, hf]
    have hacc := layoutFrom_acc fs [{ f with offset := L }] (L + 1)
    rw [e, hacc.1, hacc.2]
    constructor
    · rw [ih1]; simp only [List.length_cons]; push_cast; omega
    · intro i hi
      cases i with
      | zero => simp
      | succ j =>
        have hj : j < fs.length := by simpa using hi
        have := ih2 j hj
        have hc : L + 1 + (j : Int) = L + ((j + 1 : Nat) : Int) := by push_cast; omega
        simp only [List.singleton_append, List.getElem?_cons_succ, List.getElem_cons_succ]
        rw [this, hc]

theorem and_two_pow_ne_zero (x j : Nat) : (x &&& 2 ^ j != 0) = x.testBit j := by
  cases h : x.testBit j with
  | true =>
    have : (x &&& 2 ^ j).testBit j = true := by
      simp [Nat.testBit_and, h, Nat.testBit_two_pow_self]
    have hne : x &&& 2 ^ j ≠ 0 := by
      intro h0; rw [h0] at this; simp at this
    simp [hne]
  | false =>
    have : x &&& 2 ^ j = 0 := by
      apply Nat.eq_of_testBit_eq
      intro i
      simp only [Nat.testBit_and, Nat.testBit_two_pow, Nat.zero_testBit]
      by_cases hji : j = i
      · subst hji; simp [h]
      · simp [hji]
    simp [this]

theorem unmarshal_bit (byteOrder : ByteOrder) (name : String) (k : Int) (i : Nat)
    (hk : 0 ≤ k) (hi : i < 8) :
    unmarshal byteOrder ⟨name, "bool", 8 * k + i, 1, 1⟩ =
      some (Expr.bitTest (ByteSrc.raw k) (2 ^ (7 - i))) := by
  have hs := offset_split k i hk (by omega) (by omega)
  have hb := goIndex_bitmasks (i : Int) (by omega) (by omega)
  simp only [Int.toNat_ofNat] at hb
  simp [unmarshal, sources, offsetByte, offsetBit, hs, dataLoop, goIndex, tdiv_octets.1]
  simpa [goIndex] using hb

/-- C8: `N` consecutive `bool` fields, `1 ≤ N ≤ 8`, that begin at the
byte-aligned cursor `8 * k` advance the cursor by exactly `N` bits, and the
`i`-th of them is placed in byte `k` at bit `i` and emitted as the test
`data[k] & bitmasks[i] != 0` on the unmasked byte, with
`bitmasks[i] = 2 ^ (7 - i)`: its value is bit `i` of `data[k]` counted from
the most significant bit. -/
theorem bool_run (byteOrder : ByteOrder) (pre bools post : List Field) (k : Int)
    (hk : 0 ≤ k) (hpre : (layout pre).2 = 8 * k)
    (hN1 : 1 ≤ bools.length) (hN8 : bools.length ≤ 8)
    (hb : ∀ f ∈ bools, f.fieldType = "bool" ∧ f.typeLength = 1 ∧ f.length = 1) :
    (layout (pre ++ bools)).2 = 8 * k + bools.length ∧
    ∀ (i : Nat) (hi : i < bools.length),
      (layout (pre ++ bools ++ post)).1[pre.length + i]? =
        some { bools[i] with offset := 8 * k + i } ∧
      offsetByte { bools[i] with offset := 8 * k + i } = k ∧
      offsetBit { bools[i] with offset := 8 * k + i } = i ∧
      goIndex bitmasks i = some (2 ^ (7 - i)) ∧
      unmarshal byteOrder { bools[i] with offset := 8 * k + i } =
        some (Expr.bitTest (ByteSrc.raw k) (2 ^ (7 - i))) ∧
      ∀ (data : List (Fin 256)) (x : Fin 256), goIndex data k = some x →
        evalExpr data (Expr.bitTest (ByteSrc.raw k) (2 ^ (7 - i))) =
          some (Value.bool (x.val.testBit (7 - i))) := by
  have hbits := layoutFrom_bits bools (fun f hf => (hb f hf).2.2) (8 * k)
  constructor
  · rw [(layout_append pre bools).2, hpre]; exact hbits.1
  · intro i hi
    have hi8 : i < 8 := by omega
    have hs := offset_split k i hk (by omega) (by omega)
    have hmask := goIndex_bitmasks (i : Int) (by omega) (by omega)
    simp only [Int.toNat_ofNat] at hmask
    refine ⟨?_, hs.1, hs.2, hmask, ?_, ?_⟩
    · rw [List.append_assoc, (layout_append pre (bools ++ post)).1, hpre]
      rw [List.getElem?_append_right (by simp [layout_length])]
      simp only [layout_length, Nat.add_sub_cancel_left]
      have e : layoutFrom ([], 8 * k) (bools ++ post) =
          layoutFrom (layoutFrom ([], 8 * k) bools) post := layoutFrom_append _ _ _
      rw [e, (layoutFrom_acc post _ _).1]
      rw [List.getElem?_append_left (by simp [layoutFrom_length]; exact hi)]
      exact hbits.2 i hi
    · obtain ⟨h1, h2, h3⟩ := hb bools[i] (List.getElem_mem _)
      have := unmarshal_bit byteOrder bools[i].name k i hk hi8
      rw [← this]
      congr 1
      cases hbi : bools[i] with
      | mk n ft off tl len =>
        rw [hbi] at h1 h2 h3
        simp only at h1 h2 h3
        simp [h1, h2, h3]
    · intro data x hx
      simp [evalExpr, evalSrc, hx, and_two_pow_ne_zero]

/-! ## The emitted routine on a buffer -/

/-- The guard and the assignments that `TestGenerate` expects for `T1`,
`T5`, `T6` and `T7`. -/
theorem process_tests :
    (process ByteOrder.BigEndian t1_in).map
        (fun d => (d.minLength, d.assigns.map fun a => (a.1, a.2.render))) =
      some (1, [("length", "uint8(data[0])")]) ∧
    (process ByteOrder.BigEndian t5_in).map
        (fun d => (d.minLength, d.assigns.map fun a => (a.1, a.2.render))) =
      some (3, [("b1", "uint8(data[0])"), ("b2", "uint8(data[1])"),
        ("b3", "data[2] & 0x80 != 0"), ("b4", "data[2] & 0x40 != 0"),
        ("b5", "uint8(data[2] & 0x3f)")]) ∧
    (process ByteOrder.BigEndian t6_in).map
        (fun d => (d.minLength, d.assigns.map fun a => (a.1, a.2.render))) =
      some (4, [("b1", "uint8(data[0])"), ("b2", "uint8(data[1])"),
        ("b3", "data[2] & 0x80 != 0"), ("b4", "data[2] & 0x40 != 0"),
        ("b5", "binary.BigEndian.Uint16([]byte\x7bdata[2] & 0x3f,data[3]\x7d)")]) ∧
    (process ByteOrder.BigEndian t7_in).map
        (fun d => (d.minLength, d.assigns.map fun a => (a.1, a.2.render))) =
      some (8, [("b1", "uint8(data[0])"), ("b2", "uint8(data[1])"),
        ("b3", "data[2] & 0x80 != 0"), ("b4", "data[2] & 0x40 != 0"),
        ("b5", "binary.BigEndian.Uint64([]byte\x7b0x00,0x00,data[2] & 0x3f,data[3]," ++
          "data[4],data[5],data[6],data[7]\x7d)")]) := by
  decide

/-- The fuel given to the loops of `unmarshal` in `sources` is enough: any
larger amount builds the same slice. -/
theorem sources_fuel (f : Field) (extra : Nat) :
    dataLoop (offsetByte f) (offsetBit f) f.length (f.length.toNat + extra) 0 [] =
      dataLoop (offsetByte f) (offsetBit f) f.length f.length.toNat 0 [] ∧
    ∀ b, padLoop (f.typeLength - f.length) ((f.typeLength - f.length).toNat + extra) 0 b =
      padLoop (f.typeLength - f.length) (f.typeLength - f.length).toNat 0 b :=
  ⟨dataLoop_fuel_irrelevant _ _ _ _ _ 0 [] (by push_cast; omega) (by omega),
    fun b => padLoop_fuel_irrelevant _ _ _ 0 b (by push_cast; omega) (by omega)⟩

theorem evalSrc_lt (data : List (Fin 256)) (s : ByteSrc) (x : Nat)
    (h : evalSrc data s = some x) : x < 256 := by
  cases s with
  | zero => simp [evalSrc] at h; omega
  | raw k =>
    simp only [evalSrc, Option.map_eq_some'] at h
    obtain ⟨y, _, rfl⟩ := h
    exact y.isLt
  | masked k m =>
    simp only [evalSrc, Option.map_eq_some'] at h
    obtain ⟨y, _, rfl⟩ := h
    exact lt_of_le_of_lt Nat.and_le_left y.isLt

theorem evalSrcs_bound (data : List (Fin 256)) (bs : List ByteSrc) :
    ∀ (xs : List Nat), evalSrcs data bs = some xs →
      xs.length = bs.length ∧ ∀ x ∈ xs, x < 256 := by
  induction bs with
  | nil => intro xs h; simp [evalSrcs] at h; subst h; simp
  | cons s rest ih =>
    intro xs h
    simp only [evalSrcs, Option.bind_eq_some, Option.map_eq_some'] at h
    obtain ⟨x, hx, ys, hys, rfl⟩ := h
    obtain ⟨hl, hb⟩ := ih ys hys
    refine ⟨by simp [hl], ?_⟩
    intro y hy
    rcases List.mem_cons.1 hy with h1 | h1
    · subst h1; exact evalSrc_lt data s y hx
    · exact hb y h1

theorem evalSrcs_zeros (data : List (Fin 256)) (bs : List ByteSrc) (z : Nat) :
    evalSrcs data (List.replicate z ByteSrc.zero ++ bs) =
      (evalSrcs data bs).map fun ys => List.replicate z 0 ++ ys := by
  induction z with
  | zero =>
    cases h : evalSrcs data bs <;> simp [h]
  | succ n ih =>
    have e : evalSrcs data (List.replicate (n + 1) ByteSrc.zero ++ bs) =
        (evalSrcs data (List.replicate n ByteSrc.zero ++ bs)).map fun xs => 0 :: xs := rfl
    rw [e, ih]
    cases h : evalSrcs data bs <;> simp [List.replicate_succ]

theorem foldl_bytes_lt (xs : List Nat) (hb : ∀ x ∈ xs, x < 256) :
    ∀ (a : Nat), xs.foldl (fun acc x => acc * 256 + x) a < (a + 1) * 256 ^ xs.length := by
  induction xs with
  | nil => intro a; simp
  | cons x rest ih =>
    intro a
    have hx := hb x (List.mem_cons_self _ _)
    have h := ih (fun y hy => hb y (List.mem_cons_of_mem _ hy)) (a * 256 + x)
    simp only [List.foldl_cons, List.length_cons]
    calc List.foldl (fun acc x => acc * 256 + x) (a * 256 + x) rest
        < (a * 256 + x + 1) * 256 ^ rest.length := h
      _ ≤ ((a + 1) * 256) * 256 ^ rest.length := Nat.mul_le_mul_right _ (by omega)
      _ = (a + 1) * 256 ^ (rest.length + 1) := by rw [pow_succ]; ring

theorem bigEndian_zeros (z : Nat) (ys : List Nat) :
    bigEndian (List.replicate z 0 ++ ys) = bigEndian ys := by
  induction z with
  | zero => simp
  | succ n ih =>
    simp only [bigEndian, List.replicate_succ, List.cons_append, List.foldl_cons] at ih ⊢
    simpa using ih

/-- The big-endian half of the override narrowing: behind `z` bytes `0x00`
the data bytes `bs` reassemble, in the order `BigEndian`, to a value below
`256 ^ bs.length`; six data bytes give a value below `2 ^ 48`. -/
theorem bigEndian_override_narrowed (data : List (Fin 256)) (width z v : Nat)
    (bs : List ByteSrc)
    (h : evalExpr data (Expr.binaryUint width ByteOrder.BigEndian
      (List.replicate z ByteSrc.zero ++ bs)) = some (Value.uint v)) :
    v < 256 ^ bs.length := by
  simp only [evalExpr, evalSrcs_zeros, Option.map_map, Option.map_eq_some',
    Function.comp] at h
  obtain ⟨ys, hys, hv⟩ := h
  obtain ⟨hl, hb⟩ := evalSrcs_bound data bs ys hys
  simp only [Value.uint.injEq, bigEndian_zeros] at hv
  have := foldl_bytes_lt ys hb 0
  rw [← hv, ← hl]
  simpa [bigEndian] using this

/-! ## The claims at the structs of the tests -/

/-- C1, counterexample: after a `uint8` with the override `binary:length:-3`
the cursor is -3; the next field, a `uint16`, moves it to `-3 + 16 = 13`,
since `-3 % 8 > 0` is false, while the rule of the claim, with `-3 mod 8 ≠ 0`
and `16 > 1`, gives 16 for the remainder of Go and 8 for the non-negative
remainder. -/
theorem layout_rule_fails_below_zero :
    (layout [⟨"a", "uint8", 0, 8, -3⟩]).2 = -3 ∧
    (layout ([⟨"a", "uint8", 0, 8, -3⟩] ++ [⟨"b", "uint16", 0, 16, 16⟩])).2 = 13 ∧
    ¬ ((layout ([⟨"a", "uint8", 0, 8, -3⟩] ++ [⟨"b", "uint16", 0, 16, 16⟩])).2 =
      (if (layout [⟨"a", "uint8", 0, 8, -3⟩]).2.tmod 8 ≠ 0 ∧ (16 : Int) > 1
        then (layout [⟨"a", "uint8", 0, 8, -3⟩]).2 +
          (16 - (layout [⟨"a", "uint8", 0, 8, -3⟩]).2.tmod 8)
        else (layout [⟨"a", "uint8", 0, 8, -3⟩]).2 + 16)) ∧
    ¬ ((layout ([⟨"a", "uint8", 0, 8, -3⟩] ++ [⟨"b", "uint16", 0, 16, 16⟩])).2 =
      (if (layout [⟨"a", "uint8", 0, 8, -3⟩]).2 % 8 ≠ 0 ∧ (16 : Int) > 1
        then (layout [⟨"a", "uint8", 0, 8, -3⟩]).2 +
          (16 - (layout [⟨"a", "uint8", 0, 8, -3⟩]).2 % 8)
        else (layout [⟨"a", "uint8", 0, 8, -3⟩]).2 + 16)) := by
  decide

/-- C1 at the field `b5` of `T5`: it is recorded at the cursor 18 after the
four fields before it, and the cursor after it is `18 + (8 - 2) = 24`. -/
theorem layout_rule_witness :
    0 ≤ (layout (t2_in ++ t4_bools)).2 ∧
    (layout (t2_in ++ t4_bools ++ [⟨"b5", "uint8", 0, 8, 8⟩])).2 = 24 ∧
    (layout (t2_in ++ t4_bools ++ ⟨"b5", "uint8", 0, 8, 8⟩ :: [])).1[4]? =
      some ⟨"b5", "uint8", 18, 8, 8⟩ :=
  ⟨by decide,
    ((layout_rule (t2_in ++ t4_bools) [] ⟨"b5", "uint8", 0, 8, 8⟩).2.2.2.2.2
      (by decide)).trans (by decide),
    (layout_rule (t2_in ++ t4_bools) [] ⟨"b5", "uint8", 0, 8, 8⟩).2.1⟩

/-- C2 at `T7`: its fields are valid and no index read exceeds the guard. -/
theorem reads_within_guard_witness :
    (∀ f ∈ t7_in, validField f) ∧
    ∃ d, process ByteOrder.BigEndian t7_in = some d ∧
      ∀ a ∈ d.assigns, ∀ k ∈ a.2.reads, 0 ≤ k ∧ k ≤ d.minLength - 1 :=
  ⟨by decide, reads_within_guard ByteOrder.BigEndian t7_in (by decide)⟩

/-- C4 at `T5`: its fields are valid and the bound of the guard is at least 1. -/
theorem guard_is_ceiling_witness :
    (∀ f ∈ t5_in, validField f) ∧ t5_in ≠ [] ∧
    ∃ d, process ByteOrder.BigEndian t5_in = some d ∧ (t5_in ≠ [] → 1 ≤ d.minLength) :=
  ⟨by decide, by decide, (guard_is_ceiling ByteOrder.BigEndian t5_in).2.2.2.2 (by decide)⟩

/-- C7 at the field `b5` of `T7`: a `uint64` with a 48-bit override at byte 2,
bit 2. -/
theorem octet_field_sources_witness :
    naturalWidth "uint64" = some 64 ∧ "uint64" ≠ "bool" ∧ (0 : Int) < 48 ∧ (8 : Int) ∣ 48 ∧
    (48 : Int) ≤ 64 ∧ (0 : Int) ≤ 2 ∧
    ∃ e first, unmarshal ByteOrder.BigEndian ⟨"b5", "uint64", 8 * 2 + 2, 64, 48⟩ = some e ∧
      ((2 : Int) = 0 → first = ByteSrc.raw 2) ∧
      ((0 : Int) < 2 → ∃ m, goIndex masks 2 = some m ∧ first = ByteSrc.masked 2 m) ∧
      e.sources = List.replicate (((64 : Int) - 48) / 8).toNat ByteSrc.zero ++
        first :: (List.range (((48 : Int) / 8).toNat - 1)).map
          (fun (j : Nat) => ByteSrc.raw (2 + 1 + (j : Int))) ∧
      e.sources.length = ((64 : Int) / 8).toNat ∧
      ("uint64" = "uint8" → e = Expr.conv "uint64" first) ∧
      ("uint64" ≠ "uint8" → e = Expr.binaryUint (64 : Int).toNat ByteOrder.BigEndian e.sources) :=
  ⟨by decide, by decide, by decide, by decide, by decide, by decide,
    octet_field_sources ByteOrder.BigEndian "b5" "uint64" 64 48 2 2 (by decide) (by decide)
      (by decide) (by decide) (by decide) (by decide) (by decide) (by decide)⟩

/-- C8 at the fields `b3`, `b4` of `T4`, which begin at byte 2. -/
theorem bool_run_witness :
    (0 : Int) ≤ 2 ∧ (layout t2_in).2 = 8 * 2 ∧ 1 ≤ t4_bools.length ∧ t4_bools.length ≤ 8 ∧
    (∀ f ∈ t4_bools, f.fieldType = "bool" ∧ f.typeLength = 1 ∧ f.length = 1) ∧
    (layout (t2_in ++ t4_bools)).2 = 8 * 2 + t4_bools.length :=
  ⟨by decide, by decide, by decide, by decide, by decide,
    (bool_run ByteOrder.BigEndian t2_in t4_bools [] 2 (by decide) (by decide) (by decide)
      (by decide) (by decide)).1⟩

theorem naturalWidth_pos (fieldType : String) (T : Int)
    (h : naturalWidth fieldType = some T) : 1 ≤ T := by
  unfold naturalWidth at h
  split at h
  · simp only [Option.some.injEq] at h; omega
  split at h
  · simp only [Option.some.injEq] at h; omega
  split at h
  · simp only [Option.some.injEq] at h; omega
  split at h
  · simp only [Option.some.injEq] at h; omega
  split at h
  · simp only [Option.some.injEq] at h; omega
  · simp at h

/-- C11, amended: every `Field` produced by `parse` has the name and the
type name of the declaration, one of the five supported kinds with
`typeLength` its natural width, and the offset 0.  Without a tag, or with a
tag that does not begin with `binary:`, its length is the natural width, and
it is a valid schema field.  With a tag `binary:length:<n>` its length is
the 32-bit integer `n` as written: `parse` compares it neither with 1 nor
with `typeLength`, for `bool` and for the integer kinds alike. -/
theorem parse_fields (a : AstField) (f : Field) (h : parse a = some f) :
    goIndex a.names 0 = some f.name ∧ a.typeIdent = some f.fieldType ∧
    naturalWidth f.fieldType = some f.typeLength ∧ f.offset = 0 ∧
    (a.tag = none → f.length = f.typeLength ∧ validField f) ∧
    (∀ value, a.tag = some value →
      ¬ "binary:".toList.isPrefixOf (trimBackquotes value.toList) →
      f.length = f.typeLength ∧ validField f) ∧
    (∀ value, a.tag = some value →
      "binary:".toList.isPrefixOf (trimBackquotes value.toList) →
      goIndex (splitColon (trimBackquotes value.toList)) 1 = some "length".toList ∧
      ∃ tok, goIndex (splitColon (trimBackquotes value.toList)) 2 = some tok ∧
        parseInt32 tok = some f.length) := by
  unfold parse at h
  simp only [Option.bind_eq_some] at h
  obtain ⟨name, hname, fieldType, htype, typeLength, hwidth, h⟩ := h
  have hT := naturalWidth_pos fieldType typeLength hwidth
  have hnat : ∀ l, validField ⟨name, fieldType, 0, typeLength, l⟩ ↔
      (1 ≤ l ∧ l ≤ typeLength) := by
    intro l; simp [validField, hwidth]
  cases htag : a.tag with
  | none =>
    simp only [htag, Option.some.injEq] at h
    subst h
    refine ⟨hname, htype, hwidth, rfl, fun _ => ⟨rfl, (hnat _).2 ⟨hT, le_refl _⟩⟩, ?_, ?_⟩
    · intro value hv; simp at hv
    · intro value hv; simp at hv
  | some value =>
    simp only [htag] at h
    by_cases hp : "binary:".toList.isPrefixOf (trimBackquotes value.toList)
    · rw [if_pos hp] at h
      simp only [Option.bind_eq_some] at h
      obtain ⟨tok1, htok1, h⟩ := h
      by_cases hl : tok1 = "length".toList
      · rw [if_pos hl] at h
        simp only [Option.bind_eq_some, Option.map_eq_some'] at h
        obtain ⟨tok2, htok2, l, hparse, rfl⟩ := h
        refine ⟨hname, htype, hwidth, rfl, fun hn => by simp at hn, ?_, ?_⟩
        · intro v hv hnp
          simp only [Option.some.injEq] at hv
          subst hv
          exact absurd hp hnp
        · intro v hv _
          simp only [Option.some.injEq] at hv
          subst hv
          exact ⟨by rw [htok1, hl], tok2, htok2, hparse⟩
      · rw [if_neg hl] at h
        exact absurd h (by simp)
    · rw [if_neg hp] at h
      simp only [Option.some.injEq] at h
      subst h
      refine ⟨hname, htype, hwidth, rfl, fun hn => by simp at hn, ?_, ?_⟩
      · intro v hv _
        exact ⟨rfl, (hnat _).2 ⟨hT, le_refl _⟩⟩
      · intro v hv hp'
        simp only [Option.some.injEq] at hv
        subst hv
        exact absurd hp' hp

/-- C11, counterexample: `parse` returns a `bool` of length 3 and a `uint8`
of length 0, of length -3 and of length 16, none of them a valid schema
field, and `process` lays such fields out and emits a routine. -/
theorem parse_passes_invalid_overrides :
    parse ⟨["b"], some "bool", some "`binary:length:3`"⟩ = some ⟨"b", "bool", 0, 1, 3⟩ ∧
    ¬ validField ⟨"b", "bool", 0, 1, 3⟩ ∧
    parse ⟨["z"], some "uint8", some "`binary:length:0`"⟩ = some ⟨"z", "uint8", 0, 8, 0⟩ ∧
    ¬ validField ⟨"z", "uint8", 0, 8, 0⟩ ∧
    parse ⟨["n"], some "uint8", some "`binary:length:-3`"⟩ = some ⟨"n", "uint8", 0, 8, -3⟩ ∧
    ¬ validField ⟨"n", "uint8", 0, 8, -3⟩ ∧
    parse ⟨["w"], some "uint8", some "`binary:length:16`"⟩ = some ⟨"w", "uint8", 0, 8, 16⟩ ∧
    ¬ validField ⟨"w", "uint8", 0, 8, 16⟩ ∧
    (processStruct ByteOrder.BigEndian [⟨["b"], some "bool", some "`binary:length:3`"⟩,
      ⟨["w"], some "uint8", some "`binary:length:16`"⟩]).map (fun d => d.minLength) =
      some 2 := by
  decide

/-- C11 at the field `b5` of `T7`. -/
theorem parse_fields_witness :
    parse ⟨["b5"], some "uint64", some "`binary:length:48`"⟩ =
      some ⟨"b5", "uint64", 0, 64, 48⟩ ∧
    naturalWidth "uint64" = some 64 ∧
    parseInt32 "48".toList = some 48 :=
  ⟨by decide,
    (parse_fields ⟨["b5"], some "uint64", some "`binary:length:48`"⟩
      ⟨"b5", "uint64", 0, 64, 48⟩ (by decide)).2.2.1,
    by decide⟩

/-! ## The mask tables -/

/-- C13: the two mask tables have exactly 8 entries each, and for every `i`
in `0..7`, `bitmasks[i] = 2 ^ (7 - i)`, with exactly the bit `7 - i` set (bit
`i` counted from the most significant bit of a byte), and
`masks[i] = 2 ^ (8 - i) - 1`, with exactly the low `8 - i` bits set. -/
theorem mask_tables :
    bitmasks.length = 8 ∧ masks.length = 8 ∧
    (∀ i : Fin 8, bitmasks[i.val]? = some (2 ^ (7 - i.val)) ∧
      masks[i.val]? = some (2 ^ (8 - i.val) - 1)) ∧
    (∀ (i : Fin 8) (j : Nat), ∀ b ∈ bitmasks[i.val]?, b.testBit j = decide (j = 7 - i.val)) ∧
    (∀ (i : Fin 8) (j : Nat), ∀ m ∈ masks[i.val]?, m.testBit j = decide (j < 8 - i.val)) := by
  have h : ∀ i : Fin 8, bitmasks[i.val]? = some (2 ^ (7 - i.val)) ∧
      masks[i.val]? = some (2 ^ (8 - i.val) - 1) := by decide
  refine ⟨rfl, rfl, h, ?_, ?_⟩
  · intro i j b hb
    rw [(h i).1] at hb
    simp only [Option.mem_def, Option.some.injEq] at hb
    subst hb
    rw [Nat.testBit_two_pow]
    simp [eq_comm]
  · intro i j m hm
    rw [(h i).2] at hm
    simp only [Option.mem_def, Option.some.injEq] at hm
    subst hm
    exact Nat.testBit_two_pow_sub_one _ _

theorem and_mask_bit (x a b : Nat) :
    (x &&& (2 ^ a - 1)) &&& 2 ^ b = if b < a then x &&& 2 ^ b else 0 := by
  apply Nat.eq_of_testBit_eq
  intro i
  by_cases hba : b < a
  · simp only [hba, if_true, Nat.testBit_and, Nat.testBit_two_pow_sub_one, Nat.testBit_two_pow]
    by_cases hbi : b = i
    · subst hbi; simp [hba]
    · simp [hbi]
  · simp only [hba, if_false, Nat.testBit_and, Nat.testBit_two_pow_sub_one, Nat.testBit_two_pow,
      Nat.zero_testBit]
    by_cases hbi : b = i
    · subst hbi; simp [hba]
    · simp [hbi]

/-- C14: for every bit offset `o` in `1..7` and every `x`, the leading mask
`masks[o]` removes the `o` bits that single-bit fields before it in the byte
can claim and nothing else: `(x & masks[o]) & bitmasks[j] = 0` for `j < o`
and `(x & masks[o]) & bitmasks[j] = x & bitmasks[j]` for `o ≤ j ≤ 7`. -/
theorem leading_mask_removes_claimed_bits (o j x m bj : Nat) (ho1 : 1 ≤ o) (ho7 : o ≤ 7)
    (hj : j ≤ 7) (hm : masks[o]? = some m) (hb : bitmasks[j]? = some bj) :
    (j < o → (x &&& m) &&& bj = 0) ∧ (o ≤ j → (x &&& m) &&& bj = x &&& bj) := by
  have h1 : masks[o]? = some (2 ^ (8 - o) - 1) := by
    interval_cases o <;> rfl
  have h2 : bitmasks[j]? = some (2 ^ (7 - j)) := by
    interval_cases j <;> rfl
  rw [h1] at hm
  rw [h2] at hb
  simp only [Option.some.injEq] at hm hb
  subst hm hb
  rw [and_mask_bit]
  constructor
  · intro h
    have : ¬ 7 - j < 8 - o := by omega
    simp [this]
  · intro h
    have : 7 - j < 8 - o := by omega
    simp [this]

/-- C14 at the offset 2 of the field `b5` of `T5` and the bits 1 and 5. -/
theorem leading_mask_removes_claimed_bits_witness :
    masks[2]? = some 0x3f ∧ bitmasks[1]? = some 0x40 ∧ bitmasks[5]? = some 0x04 ∧
    (0xd5 &&& 0x3f) &&& 0x40 = 0 ∧ (0xd5 &&& 0x3f) &&& 0x04 = 0xd5 &&& 0x04 :=
  ⟨by decide, by decide, by decide,
    (leading_mask_removes_claimed_bits 2 1 0xd5 0x3f 0x40 (by decide) (by decide) (by decide)
      (by decide) (by decide)).1 (by decide),
    (leading_mask_removes_claimed_bits 2 5 0xd5 0x3f 0x04 (by decide) (by decide) (by decide)
      (by decide) (by decide)).2 (by decide)⟩

/-! ## The end of a field wider than one bit -/

/-- C16: a field of declared width `w > 1` placed at a cursor `L ≥ 0` moves
the cursor to `8 * floor(L / 8) + w`, the end it would have had from the
beginning of its byte; so a field whose width is a multiple of 8 leaves the
cursor byte-aligned. -/
theorem wide_field_end (pre : List Field) (f : Field)
    (h0 : 0 ≤ (layout pre).2) (hw : 1 < f.length) :
    (layout (pre ++ [f])).2 = 8 * ((layout pre).2 / 8) + f.length ∧
    (8 ∣ f.length → 8 ∣ (layout (pre ++ [f])).2) := by
  have e : (layout (pre ++ [f])).2 = 8 * ((layout pre).2 / 8) + f.length := by
    rw [layout_snoc]
    simp only [processStep]
    rw [Int.tmod_eq_emod h0 (by decide)]
    split <;> omega
  refine ⟨e, fun h8 => ?_⟩
  rw [e]
  omega

/-- C16 at the field `b5` of `T7`, placed at the cursor 18: it ends at 64. -/
theorem wide_field_end_witness :
    0 ≤ (layout (t2_in ++ t4_bools)).2 ∧ (1 : Int) < 48 ∧
    (layout (t2_in ++ t4_bools ++ [⟨"b5", "uint64", 0, 64, 48⟩])).2 = 8 * 2 + 48 ∧
    (8 : Int) ∣ (layout (t2_in ++ t4_bools ++ [⟨"b5", "uint64", 0, 64, 48⟩])).2 :=
  ⟨by decide, by decide,
    (wide_field_end (t2_in ++ t4_bools) ⟨"b5", "uint64", 0, 64, 48⟩ (by decide)
      (by decide)).1.trans (by decide),
    (wide_field_end (t2_in ++ t4_bools) ⟨"b5", "uint64", 0, 64, 48⟩ (by decide)
      (by decide)).2 (by decide)⟩

/-! ## The indexing inside `unmarshal` -/

/-- C17: for a field of a supported kind with declared width at least 1 and
a non-negative offset, no index of `unmarshal` is out of range: the index
`offsetBit` of the mask tables lies in `0..7`, the slice `b` is built, and it
has at least 1 entry for `bool` and `uint8`, 2 for `uint16`, 4 for `uint32`
and 8 for `uint64`, so `b[0]`, `b[0:2]`, `b[0:4]` and `b[0:8]` are defined
and `unmarshal` returns its expression. -/
theorem unmarshal_indexing (byteOrder : ByteOrder) (f : Field)
    (hk : naturalWidth f.fieldType = some f.typeLength) (hw : 1 ≤ f.length)
    (h0 : 0 ≤ f.offset) :
    0 ≤ offsetBit f ∧ offsetBit f ≤ 7 ∧
    (∃ m, goIndex masks (offsetBit f) = some m) ∧
    (∃ m, goIndex bitmasks (offsetBit f) = some m) ∧
    ∃ b, sources f = some b ∧
      (f.fieldType = "bool" ∨ f.fieldType = "uint8" →
        1 ≤ b.length ∧ ∃ b0, goIndex b 0 = some b0) ∧
      (f.fieldType = "uint16" → 2 ≤ b.length ∧ goSlice b 2 = some (b.take 2)) ∧
      (f.fieldType = "uint32" → 4 ≤ b.length ∧ goSlice b 4 = some (b.take 4)) ∧
      (f.fieldType = "uint64" → 8 ≤ b.length ∧ goSlice b 8 = some (b.take 8)) ∧
      ∃ e, unmarshal byteOrder f = some e := by
  have hlo := offsetBit_nonneg f h0
  have hhi := offsetBit_lt f
  obtain ⟨b, hb, hT, hL, _⟩ := sources_spec f
  obtain ⟨e, he, _⟩ := unmarshal_spec byteOrder f h0 hk
  have hmask : ∃ m, goIndex masks (offsetBit f) = some m := by
    generalize offsetBit f = o at hlo hhi
    interval_cases o <;> exact ⟨_, rfl⟩
  refine ⟨hlo, by omega, hmask, ⟨_, goIndex_bitmasks _ hlo hhi⟩, b, hb, ?_, ?_, ?_, ?_, e, he⟩
  · intro _
    have h1 : 1 ≤ b.length := by omega
    exact ⟨h1, goIndex_zero_some b h1⟩
  · intro h
    rw [h] at hk
    have hT' : f.typeLength = 16 := by
      simp [naturalWidth] at hk; exact hk.symm
    have h2 : 2 ≤ b.length := by omega
    exact ⟨h2, by simp [goSlice, h2]⟩
  · intro h
    rw [h] at hk
    have hT' : f.typeLength = 32 := by
      simp [naturalWidth] at hk; exact hk.symm
    have h2 : 4 ≤ b.length := by omega
    exact ⟨h2, by simp [goSlice, h2]⟩
  · intro h
    rw [h] at hk
    have hT' : f.typeLength = 64 := by
      simp [naturalWidth] at hk; exact hk.symm
    have h2 : 8 ≤ b.length := by omega
    exact ⟨h2, by simp [goSlice, h2]⟩

/-- C17 at the field `b5` of `T7`, laid at the offset 18. -/
theorem unmarshal_indexing_witness :
    naturalWidth "uint64" = some 64 ∧ (1 : Int) ≤ 48 ∧ (0 : Int) ≤ 18 ∧
    0 ≤ offsetBit ⟨"b5", "uint64", 18, 64, 48⟩ ∧ offsetBit ⟨"b5", "uint64", 18, 64, 48⟩ ≤ 7 :=
  ⟨by decide, by decide, by decide,
    (unmarshal_indexing ByteOrder.BigEndian ⟨"b5", "uint64", 18, 64, 48⟩ (by decide)
      (by decide) (by decide)).1,
    (unmarshal_indexing ByteOrder.BigEndian ⟨"b5", "uint64", 18, 64, 48⟩ (by decide)
      (by decide) (by decide)).2.1⟩

/-! ## Integer fields of whole octets -/

/-- The expression of an integer field of whole octets at byte `k`, bit `o`:
the zero bytes, the first data byte and the unmasked bytes behind it. -/
theorem unmarshal_octets (byteOrder : ByteOrder) (name fieldType : String) (N w k o : Int)
    (hkind : naturalWidth fieldType = some N) (hint : fieldType ≠ "bool")
    (hw0 : 0 < w) (hw8 : 8 ∣ w) (hwN : w ≤ N) (hk : 0 ≤ k) (ho0 : 0 ≤ o) (ho7 : o ≤ 7) :
    ∃ e, unmarshal byteOrder ⟨name, fieldType, 8 * k + o, N, w⟩ = some e ∧
      (e = Expr.conv fieldType (firstSrc k o) ∧ w = 8 ∨
        e = Expr.binaryUint N.toNat byteOrder
          (List.replicate ((N - w) / 8).toNat ByteSrc.zero ++
            firstSrc k o :: (List.range ((w / 8).toNat - 1)).map
              (fun (j : Nat) => ByteSrc.raw (k + 1 + (j : Int))))) := by
  have hsrc : ∀ N', N' = 8 ∨ N' = 16 ∨ N' = 32 ∨ N' = 64 → w ≤ N' →
      sources ⟨name, fieldType, 8 * k + o, N', w⟩ =
      some (List.replicate ((N' - w) / 8).toNat ByteSrc.zero ++
        firstSrc k o :: (List.range ((w / 8).toNat - 1)).map
          fun (j : Nat) => ByteSrc.raw (k + 1 + (j : Int))) :=
    fun N' hN' hw' => sources_octets name fieldType N' w k o hN' hw0 hw8 hw' hk ho0 ho7
  obtain ⟨c, rfl⟩ := hw8
  unfold naturalWidth at hkind
  by_cases h8 : fieldType = "uint8"
  · simp only [h8, if_true, Option.some.injEq] at hkind
    subst hkind
    have hc : c = 1 := by omega
    subst hc
    refine ⟨Expr.conv fieldType (firstSrc k o), ?_, Or.inl ⟨rfl, rfl⟩⟩
    rw [unmarshal, hsrc 8 (Or.inl rfl) (by decide)]
    simp [h8, goIndex]
  by_cases h16 : fieldType = "uint16"
  · simp only [h16, if_true, Option.some.injEq] at hkind
    simp only [String.reduceEq, if_false, Option.some.injEq] at hkind
    subst hkind
    have hc1 : 1 ≤ c := by omega
    have hc2 : c ≤ 2 := by omega
    refine ⟨_, ?_, Or.inr rfl⟩
    rw [unmarshal, hsrc 16 (Or.inr (Or.inl rfl)) hwN]
    interval_cases c <;> simp [h16, goSlice]
  by_cases h32 : fieldType = "uint32"
  · simp only [h32, if_true, Option.some.injEq] at hkind
    simp only [String.reduceEq, if_false, Option.some.injEq] at hkind
    subst hkind
    have hc1 : 1 ≤ c := by omega
    have hc2 : c ≤ 4 := by omega
    refine ⟨_, ?_, Or.inr rfl⟩
    rw [unmarshal, hsrc 32 (Or.inr (Or.inr (Or.inl rfl))) hwN]
    interval_cases c <;> simp [h32, goSlice]
  by_cases h64 : fieldType = "uint64"
  · simp only [h64, if_true, Option.some.injEq] at hkind
    simp only [String.reduceEq, if_false, Option.some.injEq] at hkind
    subst hkind
    have hc1 : 1 ≤ c := by omega
    have hc2 : c ≤ 8 := by omega
    refine ⟨_, ?_, Or.inr rfl⟩
    rw [unmarshal, hsrc 64 (Or.inr (Or.inr (Or.inr rfl))) hwN]
    interval_cases c <;> simp [h64, goSlice]
  · simp [h8, h16, h32, h64, hint] at hkind

/-- Fields of whole octets from an aligned cursor: the cursor is the sum of
the widths. -/
theorem layoutFrom_octets_sum (fs : List Field) (h : ∀ f ∈ fs, 0 ≤ f.length ∧ 8 ∣ f.length) :
    ∀ (L : Int), 0 ≤ L → 8 ∣ L →
      (layoutFrom ([], L) fs).2 = L + (fs.map Field.length).sum := by
  induction fs with
  | nil => intro L _ _; simp [layoutFrom_nil]
  | cons f fs ih =>
    intro L h0 h8
    obtain ⟨hf0, hf8⟩ := h f (List.mem_cons_self _ _)
    have hm : L.tmod 8 = 0 := by
      rw [Int.tmod_eq_emod h0 (by decide)]; omega
    have e : layoutFrom ([], L) (f :: fs) =
        layoutFrom ([{ f with offset := L }], L + f.length) fs := by
      rw [layoutFrom_cons]
      simp [processStep, hm]
    rw [e, (layoutFrom_acc fs _ _).2,
      ih (fun g hg => h g (List.mem_cons_of_mem _ hg)) (L + f.length) (by omega) (by omega)]
    simp only [List.map_cons, List.sum_cons]
    omega

theorem sum_octets (ws : List Int) (h : ∀ w ∈ ws, 0 ≤ w ∧ 8 ∣ w) :
    0 ≤ ws.sum ∧ 8 ∣ ws.sum ∧ ws.sum = 8 * (ws.map fun w => w / 8).sum := by
  induction ws with
  | nil => simp
  | cons w ws ih =>
    obtain ⟨h0, h8⟩ := h w (List.mem_cons_self _ _)
    obtain ⟨i0, i8, is⟩ := ih (fun v hv => h v (List.mem_cons_of_mem _ hv))
    simp only [List.sum_cons, List.map_cons]
    refine ⟨by omega, by omega, by omega⟩

theorem layoutFrom_octets_aligned (fs : List Field)
    (h : ∀ f ∈ fs, 0 ≤ f.length ∧ 8 ∣ f.length) :
    ∀ (L : Int), 0 ≤ L → 8 ∣ L →
      ∀ g ∈ (layoutFrom ([], L) fs).1, 0 ≤ g.offset ∧ 8 ∣ g.offset ∧
        ∃ f ∈ fs, g = { f with offset := g.offset } := by
  induction fs with
  | nil => intro L _ _ g hg; simp [layoutFrom_nil] at hg
  | cons f fs ih =>
    intro L h0 h8 g hg
    obtain ⟨hf0, hf8⟩ := h f (List.mem_cons_self _ _)
    have hm : L.tmod 8 = 0 := by
      rw [Int.tmod_eq_emod h0 (by decide)]; omega
    have e : layoutFrom ([], L) (f :: fs) =
        layoutFrom ([{ f with offset := L }], L + f.length) fs := by
      rw [layoutFrom_cons]
      simp [processStep, hm]
    rw [e, (layoutFrom_acc fs _ _).1] at hg
    rcases List.mem_append.1 hg with h1 | h1
    · have hg' : g = { f with offset := L } := by simpa using h1
      subst hg'
      exact ⟨h0, h8, f, List.mem_cons_self _ _, rfl⟩
    · obtain ⟨i0, i8, f', hf', hgf⟩ := ih (fun g' hg' => h g' (List.mem_cons_of_mem _ hg'))
        (L + f.length) (by omega) (by omega) g h1
      exact ⟨i0, i8, f', List.mem_cons_of_mem _ hf', hgf⟩

theorem naturalWidth_int (fieldType : String) (T : Int)
    (h : naturalWidth fieldType = some T) (hint : fieldType ≠ "bool") :
    T = 8 ∨ T = 16 ∨ T = 32 ∨ T = 64 := by
  unfold naturalWidth at h
  split at h
  · simp only [Option.some.injEq] at h; omega
  split at h
  · simp only [Option.some.injEq] at h; omega
  split at h
  · simp only [Option.some.injEq] at h; omega
  split at h
  · simp only [Option.some.injEq] at h; omega
  · simp [hint] at h

/-- The expression of an integer field without override at an aligned
offset is made of unmasked bytes only. -/
theorem unmarshal_plain (byteOrder : ByteOrder) (g : Field)
    (hint : g.fieldType ≠ "bool") (hkind : naturalWidth g.fieldType = some g.typeLength)
    (hlen : g.length = g.typeLength) (h0 : 0 ≤ g.offset) (h8 : 8 ∣ g.offset) :
    ∃ e, unmarshal byteOrder g = some e ∧ ∀ s ∈ e.sources, ∃ k, s = ByteSrc.raw k := by
  obtain ⟨k, hk⟩ := h8
  have hk0 : 0 ≤ k := by omega
  have hT := naturalWidth_pos _ _ hkind
  have hT8 : 8 ∣ g.typeLength := by
    rcases naturalWidth_int _ _ hkind hint with h | h | h | h <;> omega
  have hg : g = ⟨g.name, g.fieldType, 8 * k + 0, g.typeLength, g.typeLength⟩ := by
    cases g with
    | mk n ft off tl len =>
      simp only at hk hlen
      simp [hk, hlen]
  obtain ⟨e, he, hcase⟩ := unmarshal_octets byteOrder g.name g.fieldType g.typeLength
    g.typeLength k 0 hkind hint (by omega) hT8 (le_refl _) hk0 (le_refl _) (by decide)
  rw [← hg] at he
  refine ⟨e, he, ?_⟩
  have hfirst : firstSrc k 0 = ByteSrc.raw k := by simp [firstSrc]
  rcases hcase with ⟨rfl, _⟩ | rfl
  · intro s hs
    simp only [Expr.sources, List.mem_singleton] at hs
    exact ⟨k, by rw [hs, hfirst]⟩
  · intro s hs
    simp only [Expr.sources] at hs
    rcases List.mem_append.1 hs with h | h
    · simp at h
    · rcases List.mem_cons.1 h with h1 | h1
      · exact ⟨k, by rw [h1, hfirst]⟩
      · obtain ⟨j, _, hj⟩ := List.mem_map.1 h1
        exact ⟨_, hj.symm⟩

/-- C12: in a schema made only of integer fields without override every
field is placed at the sum of the natural widths of the fields before it, a
multiple of 8, every emitted byte source is an unmasked `data[k]`, and the
bound of the length guard is the sum of the natural byte widths. -/
theorem plain_byte_packing (byteOrder : ByteOrder) (pre post : List Field) (f : Field)
    (hplain : ∀ g ∈ pre ++ f :: post, g.fieldType ≠ "bool" ∧
      naturalWidth g.fieldType = some g.typeLength ∧ g.length = g.typeLength) :
    (layout (pre ++ f :: post)).1[pre.length]? =
      some { f with offset := (pre.map Field.typeLength).sum } ∧
    8 ∣ (pre.map Field.typeLength).sum ∧
    ∃ d, process byteOrder (pre ++ f :: post) = some d ∧
      d.minLength = ((pre ++ f :: post).map fun g => g.typeLength / 8).sum ∧
      d.assigns.map Prod.fst = (pre ++ f :: post).map Field.name ∧
      ∀ a ∈ d.assigns, ∀ s ∈ a.2.sources, ∃ k, s = ByteSrc.raw k := by
  have hwidth : ∀ g ∈ pre ++ f :: post, 1 ≤ g.typeLength ∧ 8 ∣ g.typeLength := by
    intro g hg
    obtain ⟨hint, hkind, _⟩ := hplain g hg
    refine ⟨naturalWidth_pos _ _ hkind, ?_⟩
    rcases naturalWidth_int _ _ hkind hint with h | h | h | h <;> omega
  have hoct : ∀ fs : List Field, (∀ g ∈ fs, g ∈ pre ++ f :: post) →
      ∀ g ∈ fs, 0 ≤ g.length ∧ 8 ∣ g.length := by
    intro fs hsub g hg
    have := hwidth g (hsub g hg)
    rw [(hplain g (hsub g hg)).2.2]
    exact ⟨by omega, this.2⟩
  have hlens : ∀ fs : List Field, (∀ g ∈ fs, g ∈ pre ++ f :: post) →
      fs.map Field.length = fs.map Field.typeLength := by
    intro fs hsub
    apply List.map_congr_left
    intro g hg
    exact (hplain g (hsub g hg)).2.2
  have hpre_sub : ∀ g ∈ pre, g ∈ pre ++ f :: post := fun g hg => List.mem_append_left _ hg
  have hcur : (layout pre).2 = (pre.map Field.typeLength).sum := by
    have := layoutFrom_octets_sum pre (hoct pre hpre_sub) 0 (le_refl _) (dvd_zero _)
    rw [hlens pre hpre_sub] at this
    simpa [layout] using this
  have hall : (layout (pre ++ f :: post)).2 = ((pre ++ f :: post).map Field.typeLength).sum := by
    have := layoutFrom_octets_sum (pre ++ f :: post) (hoct _ (fun g hg => hg)) 0 (le_refl _)
      (dvd_zero _)
    rw [hlens _ (fun g hg => hg)] at this
    simpa [layout] using this
  have hsum := sum_octets ((pre ++ f :: post).map Field.typeLength) (by
    intro w hw
    obtain ⟨g, hg, rfl⟩ := List.mem_map.1 hw
    exact ⟨by have := (hwidth g hg).1; omega, (hwidth g hg).2⟩)
  have hsumpre := sum_octets (pre.map Field.typeLength) (by
    intro w hw
    obtain ⟨g, hg, rfl⟩ := List.mem_map.1 hw
    exact ⟨by have := (hwidth g (hpre_sub g hg)).1; omega, (hwidth g (hpre_sub g hg)).2⟩)
  have hlaid := layoutFrom_octets_aligned (pre ++ f :: post) (hoct _ (fun g hg => hg)) 0
    (le_refl _) (dvd_zero _)
  have hunm : ∀ g ∈ (layout (pre ++ f :: post)).1, ∃ e, unmarshal byteOrder g = some e ∧
      (fun (_ : Field) (e : Expr) => ∀ s ∈ e.sources, ∃ k, s = ByteSrc.raw k) g e := by
    intro g hg
    obtain ⟨g0, g8, f', hf', hgf⟩ := hlaid g hg
    obtain ⟨hint, hkind, hlen⟩ := hplain f' hf'
    exact unmarshal_plain byteOrder g (by rw [hgf]; exact hint) (by rw [hgf]; exact hkind)
      (by rw [hgf]; exact hlen) g0 g8
  obtain ⟨as, has, hn, hP⟩ := emitAssigns_spec byteOrder _ _ hunm
  refine ⟨?_, hsumpre.2.1, { minLength := ceilDiv8 (layout (pre ++ f :: post)).2, assigns := as },
    by simp [process, has], ?_, ?_, ?_⟩
  · rw [(layout_split pre post f).1, List.getElem?_append_right (by simp [layout_length])]
    simp [layout_length, hcur]
  · show ceilDiv8 (layout (pre ++ f :: post)).2 = _
    rw [hall, hsum.2.2]
    simp only [List.map_map, Function.comp_def]
    unfold ceilDiv8
    omega
  · show as.map Prod.fst = _
    rw [hn]; exact layoutFrom_names _ 0
  · intro a ha
    obtain ⟨g, _, _, h⟩ := hP a ha
    exact h

/-- C12 at `T2`: the guard is 2 and the fields are `uint8(data[0])` and
`uint8(data[1])`. -/
theorem plain_byte_packing_witness :
    (∀ g ∈ [(⟨"b1", "uint8", 0, 8, 8⟩ : Field)] ++ ⟨"b2", "uint8", 0, 8, 8⟩ :: [],
      g.fieldType ≠ "bool" ∧ naturalWidth g.fieldType = some g.typeLength ∧
        g.length = g.typeLength) ∧
    (layout ([(⟨"b1", "uint8", 0, 8, 8⟩ : Field)] ++ ⟨"b2", "uint8", 0, 8, 8⟩ :: [])).1[1]? =
      some ⟨"b2", "uint8", 8, 8, 8⟩ ∧
    process ByteOrder.BigEndian t2_in = some ⟨2, [("b1", Expr.conv "uint8" (ByteSrc.raw 0)),
      ("b2", Expr.conv "uint8" (ByteSrc.raw 1))]⟩ ∧
    (process ByteOrder.BigEndian t2_in).bind (fun d => runDecoder d [] [0x05, 0x09]) =
      some ([("b1", Value.uint 5), ("b2", Value.uint 9)], GoError.nil) :=
  ⟨by decide,
    (plain_byte_packing ByteOrder.BigEndian [⟨"b1", "uint8", 0, 8, 8⟩] []
      ⟨"b2", "uint8", 0, 8, 8⟩ (by decide)).1,
    by decide, by decide⟩

/-! ## Decoded values as bits of the buffer -/

end Marshaler
